import Mathlib

/-!
# pg_probackup: WAL archiving core (`archive.c`) and transport bootstrap (`utils/remote.c`)

A shallow embedding of `split_options` and the command-string part of `launch_agent`
(`src/utils/remote.c`) and of `push_wal_file`, `get_wal_file`, `fileEqualCRC` and
`copy_file_attributes` (`src/archive.c`), followed by theorems about them.

Conventions of the embedding:

* A C string is the list of its characters before the terminating NUL, so the pattern
  `[]` is the C test `*p == '\0'`.
* `elog(ERROR, ...)` ends the process; it is an `Except.error` carrying one constructor
  per message.  `elog(WARNING, ...)`, `elog(INFO, ...)` and `sleep` have no effect on
  the modelled state.
* The build is the one with `HAVE_LIBZ` defined.
* The two hosts are maps from paths to files.  The primitives of the location router
  (`fio_*`, `fileExists`, `pgFileGetCRC`) are not in `src/`; they follow the contract
  the specification gives for them.
* Which of the checked system calls fail is an input (`Faults`).  `fio_unlink`, whose
  result the code ignores, always removes the file.
* The sizes `fio_stat` reports while `push_wal_file` polls a temporary file are an
  input as well (`sizes`): another archiver may be writing that file.
* A path built by `snprintf` in a `MAXPGPATH` buffer is cut to the buffer.
* The copy and checksum loops carry an iteration budget; `push_wal_file_fuel` and
  `get_wal_file_fuel` show that no run uses it up.
-/

namespace PgProbackup

deriving instance DecidableEq for Except

/-! ## `utils/remote.c` -/

/-- A C string: its characters up to, not including, the terminating NUL. -/
abbrev CString := List Char

/-- The `elog(ERROR, ...)` calls of `split_options`. -/
inductive RemoteError where
  /-- `elog(ERROR, "Too much options")`. -/
  | tooMuchOptions
  deriving DecidableEq, Repr

/-- `#define MAX_CMDLINE_LENGTH  4096`. -/
def MAX_CMDLINE_LENGTH : Nat := 4096

/-- `#define MAX_CMDLINE_OPTIONS 256`. -/
def MAX_CMDLINE_OPTIONS : Nat := 256

/-- The `while (true)` loop of `split_options`.

* `argv` holds the entries `argv[0 .. argc-1]`, so `argc` is `argv.length` and
  `argv[argc++] = options` appends one entry;
* `tok` is the text between the pointers `options` (start of the pending token) and
  `opt`, so `opt != options` is `tok ≠ []`; the NUL written by `*opt++ = '\0'` ends the
  entry stored just before, which therefore reads `tok`;
* `in_quote` is the C variable of that name (`'\0'` when no group is open);
* the last argument is the text from `opt` on. -/
def split_options_loop (max_options : Nat) :
    List CString → CString → Char → CString → Except RemoteError (List CString)
  | argv, tok, _, [] =>
      -- case '\0'
      if tok ≠ [] then
        if argv.length + 1 ≥ max_options then .error .tooMuchOptions
        else .ok (argv ++ [tok])
      else .ok argv
  | argv, tok, in_quote, c :: rest =>
      if c = '\'' ∨ c = '"' then
        if in_quote = '\x00' then
          -- in_quote = *opt++; continue;
          split_options_loop max_options argv (tok ++ [c]) c rest
        else if c = in_quote then
          -- `*++opt != in_quote` looks at the next character
          match rest with
          | [] => split_options_loop max_options argv (tok ++ [c]) '\x00' []
          | d :: rest' =>
              if d ≠ in_quote then
                -- in_quote = '\0'; continue;  (opt stays on `d`)
                split_options_loop max_options argv (tok ++ [c]) '\x00' (d :: rest')
              else
                -- break; opt += 1;  (opt moves past the second quote)
                split_options_loop max_options argv (tok ++ [c, d]) in_quote rest'
        else
          -- break; opt += 1;
          split_options_loop max_options argv (tok ++ [c]) in_quote rest
      else if c = ' ' then
        -- argv[argc++] = options; if (argc >= max_options) elog(ERROR, ...);
        -- *opt++ = '\0'; options = opt; continue;
        if argv.length + 1 ≥ max_options then .error .tooMuchOptions
        else split_options_loop max_options (argv ++ [tok]) [] in_quote rest
      else
        -- default: break; opt += 1;
        split_options_loop max_options argv (tok ++ [c]) in_quote rest

/-- The function `split_options(argc, argv, max_options, options)`: the argument vector
after the call; the returned `argc` is its length. -/
def split_options (argv : List CString) (max_options : Nat) (options : CString) :
    Except RemoteError (List CString) :=
  split_options_loop max_options argv [] '\x00' options

/-- The value `split_options` returns: the new `argc`. -/
def split_options_argc (argv : List CString) (max_options : Nat) (options : CString) :
    Except RemoteError Nat :=
  (split_options argv max_options options).map List.length

/-- The option string cut at every space: `tok` is the pending piece; a pending empty
piece at the end of the string is dropped. -/
def space_pieces : CString → CString → List CString
  | tok, [] => if tok ≠ [] then [tok] else []
  | tok, c :: rest =>
      if c = ' ' then tok :: space_pieces [] rest else space_pieces (tok ++ [c]) rest

/-- `snprintf(buf, size, "%s...", ...)` for a format made of `%s` and literal text: the
formatted text cut to the `size - 1` characters that fit before the NUL. -/
def snprintf (size : Nat) (formatted : CString) : CString :=
  formatted.take (size - 1)

/-- `strrchr(s, c)`: the tail of `s` that starts at the last occurrence of `c`, or `none`
(`NULL`) when `c` does not occur. -/
def strrchr : CString → Char → Option CString
  | [], _ => none
  | x :: xs, c =>
      match strrchr xs c with
      | some r => some r
      | none => if x = c then some (x :: xs) else none

/-- The contents of `cmd` after lines 99-109 of `launch_agent`.  `remote_path` is
`instance_config.remote.path` (`none` for `NULL`), `pg_probackup` the global program
path and `PROGRAM_VERSION` the version macro, which is not defined in this file. -/
def launch_agent_cmd (remote_path : Option CString) (pg_probackup : CString)
    (PROGRAM_VERSION : CString) : CString :=
  match remote_path with
  | some path =>
      let pg_probackup' :=
        match strrchr pg_probackup '/' with
        | some sep => sep.tail  -- pg_probackup = sep + 1
        | none => pg_probackup
      snprintf MAX_CMDLINE_LENGTH
        (path ++ "/".toList ++ pg_probackup' ++ " agent ".toList ++ PROGRAM_VERSION)
  | none =>
      snprintf MAX_CMDLINE_LENGTH (pg_probackup ++ " agent ".toList ++ PROGRAM_VERSION)

/-- The program basename in the words of the specification: the part of the path after
its last `/`, the whole path when it has no `/`. -/
def spec_basename (p : CString) : CString :=
  (p.reverse.takeWhile (fun c => c ≠ '/')).reverse

/-- The remote command string in the words of the specification:
`<remote-path>/<program-basename> agent <version>`, or `<program-basename> agent
<version>` when no remote path is configured. -/
def spec_remote_cmd (remote_path : Option CString) (pg_probackup version : CString) :
    CString :=
  match remote_path with
  | some path => path ++ "/".toList ++ spec_basename pg_probackup ++ " agent ".toList ++ version
  | none => spec_basename pg_probackup ++ " agent ".toList ++ version

/-- The settings `launch_agent` reads: the fields of `instance_config.remote` (`none`
for a `NULL` pointer) and the global `num_threads`. -/
structure RemoteConfig where
  /-- The transport program, `instance_config.remote.proto`. -/
  proto : CString
  /-- The port, `instance_config.remote.port`. -/
  port : Option CString
  /-- The config file, `instance_config.remote.ssh_config`. -/
  ssh_config : Option CString
  /-- The raw option string, `instance_config.remote.ssh_options`. -/
  ssh_options : Option CString
  /-- The target host, `instance_config.remote.host`. -/
  host : CString
  /-- The remote installation path, `instance_config.remote.path`. -/
  path : Option CString
  /-- The global `num_threads`. -/
  num_threads : Int

/-- Lines 70-79 of `launch_agent`: the entries of `ssh_argv` before the option string is
split.  Each `ssh_argv[ssh_argc++] = x` is the write of `x` at the index `ssh_argc`, the
length of the list so far, and appends `x`. -/
def launch_agent_head (cfg : RemoteConfig) : List CString :=
  -- ssh_argc = 0; ssh_argv[ssh_argc++] = instance_config.remote.proto;
  let ssh_argv : List CString := [cfg.proto]
  let ssh_argv :=
    match cfg.port with
    | some port => ssh_argv ++ ["-p".toList, port]
    | none => ssh_argv
  match cfg.ssh_config with
  | some ssh_config => ssh_argv ++ ["-F".toList, ssh_config]
  | none => ssh_argv

/-- Lines 83-96 of `launch_agent`: the entries stored after the option string was split.
`cmd` is what the entry written at line 96 points to. -/
def launch_agent_tail (cfg : RemoteConfig) (cmd : CString) : List CString :=
  (if cfg.num_threads > 1 then ["-o".toList, "PasswordAuthentication=no".toList] else []) ++
    ["-o".toList, "Compression=no".toList, "-o".toList, "LogLevel=error".toList,
      cfg.host, cmd]

/-- Lines 70-96 of `launch_agent`: the entries `ssh_argv[0 .. ssh_argc-1]` when line 97
is reached, or the error `split_options` raised.  No line of `launch_agent` compares
`ssh_argc` with the size of `ssh_argv`. -/
def launch_agent_argv (cfg : RemoteConfig) (cmd : CString) :
    Except RemoteError (List CString) :=
  let split : Except RemoteError (List CString) :=
    match cfg.ssh_options with
    | some ssh_options =>
        split_options (launch_agent_head cfg) MAX_CMDLINE_OPTIONS ssh_options
    | none => .ok (launch_agent_head cfg)
  match split with
  | .error e => .error e
  | .ok ssh_argv => .ok (ssh_argv ++ launch_agent_tail cfg cmd)

/-- The indices of `ssh_argv` that `launch_agent` has written after line 97, given the
entries of lines 70-96: one per entry, and the index `ssh_argc` of the terminating
`NULL` (`ssh_argv[ssh_argc] = NULL`). -/
def ssh_argv_written (entries : List CString) : List Nat :=
  List.range (entries.length + 1)

/-! ## `archive.c`: files, hosts and the location router -/

/-- One byte of file content. -/
abbrev Byte := Fin 256

/-- File content. -/
abbrev Bytes := List Byte

/-- A regular file: its bytes and its permission bits (`st_mode`). -/
structure File where
  /-- The bytes of the file. -/
  content : Bytes
  /-- The permission bits. -/
  mode : Nat
  deriving DecidableEq, Repr

/-- The files of one host, by path (`none`: no such file). -/
abbrev FileSystem := CString → Option File

/-- The type `fio_location`, restricted to the two tags `archive.c` uses. -/
inductive fio_location where
  /-- The database host. -/
  | FIO_DB_HOST
  /-- The backup (archive) host. -/
  | FIO_BACKUP_HOST
  deriving DecidableEq, Repr

/-- The two file systems the pipelines work on. -/
structure World where
  /-- Files of `FIO_DB_HOST`. -/
  db : FileSystem
  /-- Files of `FIO_BACKUP_HOST`. -/
  backup : FileSystem

/-- The file system behind a location tag. -/
def World.fs (w : World) : fio_location → FileSystem
  | .FIO_DB_HOST => w.db
  | .FIO_BACKUP_HOST => w.backup

/-- Replace the file system behind a location tag. -/
def World.put (w : World) : fio_location → FileSystem → World
  | .FIO_DB_HOST, fs => { w with db := fs }
  | .FIO_BACKUP_HOST, fs => { w with backup := fs }

/-- A file system with the entry of `path` replaced. -/
def FileSystem.update (fs : FileSystem) (path : CString) (f : Option File) : FileSystem :=
  fun q => if q = path then f else fs q

/-- The constants, the codec and the checksum that `archive.c` takes from headers and
libraries outside `src/`.  They are parameters of the embedding. -/
structure Env where
  /-- Size of the copy buffer `buf[XLOG_BLCKSZ]`. -/
  XLOG_BLCKSZ : Nat
  /-- An array size is positive. -/
  XLOG_BLCKSZ_pos : 0 < XLOG_BLCKSZ
  /-- Number of polling rounds of the stale-partial detector. -/
  PARTIAL_WAL_TIMER : Nat
  /-- Size of the path buffers. -/
  MAXPGPATH : Nat
  /-- Permission bits of a file made by `fio_open(..., O_CREAT | O_EXCL, ...)`. -/
  FILE_PERMISSIONS : Nat
  /-- The bytes a compressing stream of the given level leaves in its file for the given
  input. -/
  compress : Int → Bytes → Bytes
  /-- The bytes a decompressing stream delivers for the given file content, `none` when
  the content is not a valid stream. -/
  decompress : Bytes → Option Bytes
  /-- The checksum `INIT_FILE_CRC32 / COMP_FILE_CRC32 / FIN_FILE_CRC32` compute for a
  byte stream, before it is stored in a `pg_crc32`. -/
  crc32 : Bytes → Nat

/-- The outcome of each system call whose result `archive.c` checks: `true` makes the
call fail.  Calls made in a loop are indexed by the iteration. -/
structure Faults where
  /-- Fault of `fio_fopen` on the source. -/
  fopen : Bool := false
  /-- Fault of `fio_gzopen` for reading. -/
  gzopen_r : Bool := false
  /-- Fault of the `i`-th `fio_gzread`. -/
  gzread : Nat → Bool := fun _ => false
  /-- Fault of `fio_gzclose` on a stream opened for reading. -/
  gzclose_r : Bool := false
  /-- Fault of the first creation of the temporary file. -/
  create : Bool := false
  /-- Fault of the second creation of the temporary file, after a stale one was removed. -/
  recreate : Bool := false
  /-- Fault of the `i`-th `fio_fread`. -/
  fread : Nat → Bool := fun _ => false
  /-- Fault of the write (`fio_write`, `fio_gzwrite`) of the `i`-th block. -/
  write : Nat → Bool := fun _ => false
  /-- Fault of `fio_gzclose` on a stream opened for writing. -/
  gzclose_w : Bool := false
  /-- Fault of `fio_flush`. -/
  flush : Bool := false
  /-- Fault of `fio_close`. -/
  close : Bool := false
  /-- Fault of `fio_fclose` on the source. -/
  fclose : Bool := false
  /-- Fault of `fio_stat` in `copy_file_attributes`. -/
  stat : Bool := false
  /-- Fault of `fio_chmod`. -/
  chmod : Bool := false
  /-- Fault of `fio_rename`. -/
  rename : Bool := false

/-- No call fails for a reason outside the file systems. -/
def Faults.none : Faults := {}

/-- Modelled from the spec: `fileExists` (not in `src/`), the existence check of the
location router. -/
def fileExists (w : World) (path : CString) (location : fio_location) : Bool :=
  (w.fs location path).isSome

/-- Modelled from the spec: `fio_access(path, F_OK, location) == 0` (not in `src/`), the
existence check of the location router. -/
def fio_access (w : World) (path : CString) (location : fio_location) : Bool :=
  (w.fs location path).isSome

/-- Modelled from the spec: `fio_fopen(path, PG_BINARY_R, location)` (not in `src/`),
open-for-read: the bytes still to be read, `none` for `NULL`. -/
def fio_fopen (fault : Bool) (w : World) (path : CString) (location : fio_location) :
    Option Bytes :=
  if fault then none else (w.fs location path).map File.content

/-- Modelled from the spec: `fio_open(path, O_RDWR | O_CREAT | O_EXCL | PG_BINARY,
location)` and `fio_gzopen(path, PG_BINARY_W, level, location)` (not in `src/`),
create-exclusive-for-write: an empty file appears unless the path exists already;
`none` is the failure value (`-1`, `NULL`). -/
def fio_open_excl (E : Env) (fault : Bool) (w : World) (path : CString)
    (location : fio_location) : Option World :=
  if fault ∨ (w.fs location path).isSome then none
  else some (w.put location ((w.fs location).update path (some ⟨[], E.FILE_PERMISSIONS⟩)))

/-- Modelled from the spec: the effect of a successful `fio_write(fd, buf, len)` (not in
`src/`) on the file the descriptor was opened on: the bytes are appended. -/
def fio_write (w : World) (path : CString) (buf : Bytes) (location : fio_location) :
    World :=
  w.put location ((w.fs location).update path
    ((w.fs location path).map fun f => { f with content := f.content ++ buf }))

/-- Modelled from the spec: `fio_unlink(path, location)` (not in `src/`), delete. -/
def fio_unlink (w : World) (path : CString) (location : fio_location) : World :=
  w.put location ((w.fs location).update path none)

/-- Modelled from the spec: `fio_rename(old, new, location)` (not in `src/`), rename:
`new` names the file `old` named; `none` is the failure value and leaves the files as
they were. -/
def fio_rename (fault : Bool) (w : World) (old new : CString) (location : fio_location) :
    Option World :=
  if fault then none
  else match w.fs location old with
    | none => none
    | some f =>
        some (w.put location (((w.fs location).update old none).update new (some f)))

/-- Modelled from the spec: `fio_stat(path, &st, true, location)` (not in `src/`) as
`copy_file_attributes` uses it: the `st_mode` of the file, `none` for `-1`. -/
def fio_stat (fault : Bool) (w : World) (path : CString) (location : fio_location) :
    Option Nat :=
  if fault then none else (w.fs location path).map File.mode

/-- Modelled from the spec: `fio_chmod(path, mode, location)` (not in `src/`),
permission-change; `none` for `-1`. -/
def fio_chmod (fault : Bool) (w : World) (path : CString) (mode : Nat)
    (location : fio_location) : Option World :=
  if fault then none
  else match w.fs location path with
    | none => none
    | some f =>
        some (w.put location ((w.fs location).update path (some { f with mode := mode })))

/-- A compressed stream open for reading (`gzFile`): the decompressed bytes still to be
delivered (`none`: the file is not a valid stream) and the end-of-file indicator. -/
structure gzFile where
  /-- Decompressed bytes not yet read. -/
  stream : Option Bytes
  /-- What `fio_gzeof` returns. -/
  eof : Bool

/-- Modelled from the spec: `fio_gzopen(path, PG_BINARY_R, level, location)` (not in
`src/`); `none` for `NULL`. -/
def fio_gzopen_r (E : Env) (fault : Bool) (w : World) (path : CString)
    (location : fio_location) : Option gzFile :=
  if fault then none
  else (w.fs location path).map fun f => ⟨E.decompress f.content, false⟩

/-- Modelled from the spec: `fio_gzread(gz, buf, len)` (not in `src/`).  The result is
`(failed, buf, gz)`: `failed` stands for a negative return value; otherwise the return
value is `buf.length`, and the end-of-file indicator is set when the request came up
short. -/
def fio_gzread (fault : Bool) (gz : gzFile) (len : Nat) : Bool × Bytes × gzFile :=
  match gz.stream with
  | none => (true, [], gz)
  | some rest =>
      if fault then (true, [], gz)
      else (false, rest.take len, ⟨some (rest.drop len), decide (rest.length < len)⟩)

/-- The conversion of an `off_t` value to `int` in `partial_file_size = st.st_size`
(two's complement, 32 bits). -/
def off_t_to_int (x : Int) : Int :=
  (x + 2 ^ 31) % 2 ^ 32 - 2 ^ 31

/-- A value stored in a `pg_crc32` (32 bits, unsigned). -/
def pg_crc32 (x : Nat) : Nat :=
  x % 2 ^ 32

/-- The `elog(ERROR, ...)` calls of `archive.c`, one constructor per message. -/
inductive ArchiveError where
  /-- "Cannot open source WAL file". -/
  | cannotOpenSource
  /-- "WAL segment ... already exists." -/
  | alreadyExists
  /-- "Cannot open destination temporary WAL file" raised as an error. -/
  | cannotOpenTemp
  /-- "Cannot stat destination temporary WAL file". -/
  | cannotStatTemp
  /-- "Destination temporary WAL file ... is not stale". -/
  | notStale
  /-- "Cannot read source WAL file". -/
  | cannotReadSource
  /-- "Cannot write to compressed WAL file". -/
  | cannotWriteCompressed
  /-- "Cannot write to WAL file". -/
  | cannotWriteTo
  /-- "Cannot close compressed WAL file". -/
  | cannotCloseCompressed
  /-- "Cannot write WAL file". -/
  | cannotWrite
  /-- "Cannot close source WAL file". -/
  | cannotCloseSource
  /-- "Cannot stat file". -/
  | cannotStatFile
  /-- "Cannot change mode of file". -/
  | cannotChmod
  /-- "Cannot rename WAL file". -/
  | cannotRename
  /-- "Source WAL file ... doesn't exist". -/
  | sourceDoesntExist
  /-- "Cannot open compressed WAL file". -/
  | cannotOpenCompressed
  /-- "Cannot read compressed WAL file". -/
  | cannotReadCompressed
  /-- "Cannot compare WAL file ... with compressed ...". -/
  | cannotCompare
  /-- The error `pgFileGetCRC` raises when it cannot open its file. -/
  | cannotOpenFile
  /-- A loop of the embedding used up its iteration budget; no run reaches it, see
  `push_wal_file_fuel` and `get_wal_file_fuel`. -/
  | outOfFuel
  deriving DecidableEq, Repr

/-- What a call leaves behind: the files and either normal return or the error that
ended the process. -/
abbrev Outcome := World × Except ArchiveError Unit

/-! ## `archive.c`: the functions -/

/-- Modelled from the spec: `pgFileGetCRC(path, true, true, NULL, location)` (not in
`src/`), the streaming checksum of a file, stored in a `pg_crc32`; it raises an error
when the file cannot be opened. -/
def pgFileGetCRC (E : Env) (w : World) (path : CString) (location : fio_location) :
    Except ArchiveError Nat :=
  match w.fs location path with
  | none => .error .cannotOpenFile
  | some f => .ok (pg_crc32 (E.crc32 f.content))

/-- The `for (;;)` loop of `fileEqualCRC` (lines 573-587), reading 1024 bytes at a
time.  `crc2` is the byte stream checksummed so far (`COMP_FILE_CRC32` extends it).
The result is `none` for `return false`, else the stream at `break`. -/
def fileEqualCRC_loop (io : Faults) :
    Nat → Nat → gzFile → Bytes → Except ArchiveError (Option Bytes)
  | 0, _, _, _ => .error .outOfFuel
  | fuel + 1, i, gz_in, crc2 =>
      match fio_gzread (io.gzread i) gz_in 1024 with
      | (failed, buf, gz_in') =>
          -- read_len <= 0 && !fio_gzeof(gz_in)
          if (failed ∨ buf.length = 0) ∧ gz_in'.eof = false then .ok none
          else
            let crc2' := crc2 ++ buf
            if gz_in'.eof = true ∨ (¬ failed ∧ buf.length = 0) then .ok (some crc2')
            else fileEqualCRC_loop io fuel (i + 1) gz_in' crc2'

/-- The iteration budget of `fileEqualCRC_loop` for a stream. -/
def gz_fuel (gz : gzFile) : Nat :=
  match gz.stream with
  | none => 1
  | some rest => rest.length + 1

/-- The function `fileEqualCRC(path1, path2, path2_is_compressed)`, with `path1` on the
database host and `path2` on the backup host. -/
def fileEqualCRC (E : Env) (io : Faults) (w : World) (path1 path2 : CString)
    (path2_is_compressed : Bool) : Except ArchiveError Bool :=
  let crc2 : Except ArchiveError (Option Nat) :=
    if path2_is_compressed then
      match fio_gzopen_r E io.gzopen_r w path2 .FIO_BACKUP_HOST with
      | none => .error .cannotCompare
      | some gz_in =>
          match fileEqualCRC_loop io (gz_fuel gz_in) 0 gz_in [] with
          | .error e => .error e
          | .ok none => .ok none
          | .ok (some stream) =>
              if io.gzclose_r then .error .cannotCloseCompressed
              else .ok (some (pg_crc32 (E.crc32 stream)))
    else
      (pgFileGetCRC E w path2 .FIO_BACKUP_HOST).map some
  match crc2 with
  | .error e => .error e
  | .ok none => .ok false
  | .ok (some crc2) =>
      match pgFileGetCRC E w path1 .FIO_DB_HOST with
      | .error e => .error e
      | .ok crc1 => .ok (decide (crc1 = crc2))

/-- The checksum `fileEqualCRC` arrives at for a file found at `path2` when no call
fails: the checksum of its content, decompressed first when `path2_is_compressed`;
`none` when the content is not a valid compressed stream (`return false`). -/
def archived_crc (E : Env) (f : File) (path2_is_compressed : Bool) : Option Nat :=
  if path2_is_compressed then
    (E.decompress f.content).map fun d => pg_crc32 (E.crc32 d)
  else some (pg_crc32 (E.crc32 f.content))

/-- The function `copy_file_attributes(from_path, from_location, to_path, to_location,
unlink_on_error)`. -/
def copy_file_attributes (io : Faults) (w : World) (from_path : CString)
    (from_location : fio_location) (to_path : CString) (to_location : fio_location)
    (unlink_on_error : Bool) : Outcome :=
  match fio_stat io.stat w from_path from_location with
  | none =>
      (if unlink_on_error then fio_unlink w to_path to_location else w,
        .error .cannotStatFile)
  | some st_mode =>
      match fio_chmod io.chmod w to_path st_mode to_location with
      | none =>
          (if unlink_on_error then fio_unlink w to_path to_location else w,
            .error .cannotChmod)
      | some w' => (w', .ok ())

/-- The `while (partial_try_count < PARTIAL_WAL_TIMER)` loop of `push_wal_file` (lines
222-240).  `st k` is what the `fio_stat` of round `k` reports for the temporary file:
`none` for a negative return value, else `st_size`, which is not negative.  The first
argument counts the rounds still to run. -/
def stale_poll (st : Nat → Option Nat) : Nat → Nat → Int → Except ArchiveError Unit
  | 0, _, _ => .ok ()
  | rounds + 1, partial_try_count, partial_file_size =>
      match st partial_try_count with
      | none => .error .cannotStatTemp
      | some st_size =>
          -- first round
          let partial_file_size :=
            if partial_try_count = 0 then off_t_to_int (st_size : Int) else partial_file_size
          -- file size is changing
          if (st_size : Int) > partial_file_size then .error .notStale
          else stale_poll st rounds (partial_try_count + 1) partial_file_size

/-- Lines 180-262 of `push_wal_file`: create the temporary file and, when that fails,
poll it, remove it and create it again.  `sizes k` is the `st_size` the `fio_stat` of
round `k` reports while the temporary file exists (`none`: the call fails); another
archiver may be writing the file, so the sizes come from outside. -/
def push_open_temp (E : Env) (io : Faults) (sizes : Nat → Option Nat)
    (to_path_temp : CString) (w : World) : Outcome :=
  match fio_open_excl E io.create w to_path_temp .FIO_BACKUP_HOST with
  | some w' => (w', .ok ())
  | none =>
      -- partial_file_exists = true
      let st : Nat → Option Nat := fun k =>
        if fileExists w to_path_temp .FIO_BACKUP_HOST then sizes k else none
      match stale_poll st E.PARTIAL_WAL_TIMER 0 0 with
      | .error e => (w, .error e)
      | .ok () =>
          let w1 := fio_unlink w to_path_temp .FIO_BACKUP_HOST
          match fio_open_excl E io.recreate w1 to_path_temp .FIO_BACKUP_HOST with
          | none => (w1, .error .cannotOpenTemp)
          | some w2 => (w2, .ok ())

/-- The copy loop of `push_wal_file` (lines 264-308).  `inp` is what is left to read
from the source, `gz_out` the bytes given to the compressing stream so far; the result
carries the final `gz_out`. -/
def push_copy (E : Env) (io : Faults) (is_compress : Bool) (to_path_temp : CString) :
    Nat → Nat → Bytes → Bytes → World → World × Except ArchiveError Bytes
  | 0, _, _, _, w => (w, .error .outOfFuel)
  | fuel + 1, i, inp, gz_out, w =>
      if io.fread i then
        (fio_unlink w to_path_temp .FIO_BACKUP_HOST, .error .cannotReadSource)
      else
        let buf := inp.take E.XLOG_BLCKSZ
        if buf.length > 0 then
          if io.write i then
            (fio_unlink w to_path_temp .FIO_BACKUP_HOST,
              .error (if is_compress then .cannotWriteCompressed else .cannotWriteTo))
          else if is_compress then
            push_copy E io is_compress to_path_temp fuel (i + 1)
              (inp.drop E.XLOG_BLCKSZ) (gz_out ++ buf) w
          else
            push_copy E io is_compress to_path_temp fuel (i + 1)
              (inp.drop E.XLOG_BLCKSZ) gz_out
              (fio_write w to_path_temp buf .FIO_BACKUP_HOST)
        else
          -- read_len == 0: break
          (w, .ok gz_out)

/-- Lines 310-350 of `push_wal_file`: close both ends, copy the permission bits, rename.
The compressed bytes reach the temporary file when the stream is closed. -/
def push_finish (E : Env) (io : Faults) (from_path to_path_p to_path_temp : CString)
    (is_compress : Bool) (compress_level : Int) (gz_out : Bytes) (w : World) : Outcome :=
  let closed : Option World :=
    if is_compress then
      if io.gzclose_w then none
      else some (fio_write w to_path_temp (E.compress compress_level gz_out)
        .FIO_BACKUP_HOST)
    else
      if io.flush ∨ io.close then none else some w
  match closed with
  | none =>
      (fio_unlink w to_path_temp .FIO_BACKUP_HOST,
        .error (if is_compress then .cannotCloseCompressed else .cannotWrite))
  | some w1 =>
      if io.fclose then
        (fio_unlink w1 to_path_temp .FIO_BACKUP_HOST, .error .cannotCloseSource)
      else
        match copy_file_attributes io w1 from_path .FIO_DB_HOST to_path_temp
            .FIO_BACKUP_HOST true with
        | (w2, .error e) => (w2, .error e)
        | (w2, .ok ()) =>
            match fio_rename io.rename w2 to_path_temp to_path_p .FIO_BACKUP_HOST with
            | none => (fio_unlink w2 to_path_temp .FIO_BACKUP_HOST, .error .cannotRename)
            | some w3 => (w3, .ok ())

/-- The path `to_path_p` of `push_wal_file`: `gz_to_path` when compressing. -/
def push_dest (E : Env) (to_path : CString) (is_compress : Bool) : CString :=
  if is_compress then snprintf E.MAXPGPATH (to_path ++ ".gz".toList) else to_path

/-- The path `to_path_temp` of `push_wal_file`. -/
def push_temp (E : Env) (to_path : CString) (is_compress : Bool) : CString :=
  if is_compress then
    snprintf E.MAXPGPATH (snprintf E.MAXPGPATH (to_path ++ ".gz".toList) ++ ".part".toList)
  else
    snprintf E.MAXPGPATH (to_path ++ ".part".toList)

/-- The function `push_wal_file(from_path, to_path, is_compress, overwrite,
compress_level)`: `from_path` is on the database host, `to_path` on the backup host.
`sizes` is explained at `push_open_temp`. -/
def push_wal_file (E : Env) (io : Faults) (sizes : Nat → Option Nat)
    (from_path to_path : CString) (is_compress overwrite : Bool) (compress_level : Int)
    (w : World) : Outcome :=
  let to_path_p := push_dest E to_path is_compress
  let to_path_temp := push_temp E to_path is_compress
  -- open file for read
  match fio_fopen io.fopen w from_path .FIO_DB_HOST with
  | none => (w, .error .cannotOpenSource)
  | some inp =>
      -- Check if possible to skip copying
      let skip : Except ArchiveError Bool :=
        if fileExists w to_path_p .FIO_BACKUP_HOST then
          match fileEqualCRC E io w from_path to_path_p is_compress with
          | .error e => .error e
          | .ok true => .ok true
          | .ok false => if !overwrite then .error .alreadyExists else .ok false
        else .ok false
      match skip with
      | .error e => (w, .error e)
      | .ok true => (w, .ok ())
      | .ok false =>
          match push_open_temp E io sizes to_path_temp w with
          | (w1, .error e) => (w1, .error e)
          | (w1, .ok ()) =>
              match push_copy E io is_compress to_path_temp (inp.length + 1) 0 inp [] w1 with
              | (w2, .error e) => (w2, .error e)
              | (w2, .ok gz_out) =>
                  push_finish E io from_path to_path_p to_path_temp is_compress
                    compress_level gz_out w2

/-- The path `to_path_temp` of `get_wal_file`. -/
def get_temp (E : Env) (to_path : CString) : CString :=
  snprintf E.MAXPGPATH (to_path ++ ".part".toList)

/-- The path `gz_from_path` of `get_wal_file`. -/
def get_gz_source (E : Env) (from_path : CString) : CString :=
  snprintf E.MAXPGPATH (from_path ++ ".gz".toList)

/-- The copy loop of `get_wal_file` (lines 426-480).  `inp` is what is left to read from
a plain source, `gz_in` the stream of a compressed one. -/
def get_copy (E : Env) (io : Faults) (is_decompress : Bool) (to_path_temp : CString) :
    Nat → Nat → Bytes → gzFile → World → Outcome
  | 0, _, _, _, w => (w, .error .outOfFuel)
  | fuel + 1, i, inp, gz_in, w =>
      if is_decompress then
        match fio_gzread (io.gzread i) gz_in E.XLOG_BLCKSZ with
        | (failed, buf, gz_in') =>
            if (failed ∨ buf.length = 0) ∧ gz_in'.eof = false then
              (fio_unlink w to_path_temp .FIO_DB_HOST, .error .cannotReadCompressed)
            else if ¬ failed ∧ buf.length > 0 ∧ io.write i = true then
              (fio_unlink w to_path_temp .FIO_DB_HOST, .error .cannotWriteTo)
            else
              let w' :=
                if ¬ failed ∧ buf.length > 0 then fio_write w to_path_temp buf .FIO_DB_HOST
                else w
              -- Check for EOF
              if gz_in'.eof = true ∨ (¬ failed ∧ buf.length = 0) then (w', .ok ())
              else get_copy E io is_decompress to_path_temp fuel (i + 1) inp gz_in' w'
      else
        if io.fread i then
          (fio_unlink w to_path_temp .FIO_DB_HOST, .error .cannotReadSource)
        else
          let buf := inp.take E.XLOG_BLCKSZ
          if buf.length > 0 then
            if io.write i then
              (fio_unlink w to_path_temp .FIO_DB_HOST, .error .cannotWriteTo)
            else
              get_copy E io is_decompress to_path_temp fuel (i + 1)
                (inp.drop E.XLOG_BLCKSZ) gz_in (fio_write w to_path_temp buf .FIO_DB_HOST)
          else (w, .ok ())

/-- Lines 377-397 of `get_wal_file`: `none` when the "doesn't exist" error is raised,
else the value of `is_decompress`. -/
def get_probe (E : Env) (w : World) (from_path : CString) : Option Bool :=
  if fio_access w from_path .FIO_BACKUP_HOST = false then
    if fio_access w (get_gz_source E from_path) .FIO_BACKUP_HOST then
      some true
    else none
  else some false

/-- Lines 482-522 of `get_wal_file`: close both ends, copy the permission bits,
rename. -/
def get_finish (io : Faults) (from_path_p to_path to_path_temp : CString)
    (is_decompress : Bool) (w : World) : Outcome :=
  if io.flush ∨ io.close then
    (fio_unlink w to_path_temp .FIO_DB_HOST, .error .cannotWrite)
  else if is_decompress ∧ io.gzclose_r = true then
    (fio_unlink w to_path_temp .FIO_DB_HOST, .error .cannotCloseCompressed)
  else if ¬ is_decompress ∧ io.fclose = true then
    (fio_unlink w to_path_temp .FIO_DB_HOST, .error .cannotCloseSource)
  else
    -- update file permission.
    match copy_file_attributes io w from_path_p .FIO_BACKUP_HOST to_path_temp
        .FIO_DB_HOST true with
    | (w3, .error e) => (w3, .error e)
    | (w3, .ok ()) =>
        match fio_rename io.rename w3 to_path_temp to_path .FIO_DB_HOST with
        | none => (fio_unlink w3 to_path_temp .FIO_DB_HOST, .error .cannotRename)
        | some w4 => (w4, .ok ())

/-- Lines 399-424 of `get_wal_file`: open the source that was found, then create the
temporary file.  The result holds the plain source (`in`), the compressed one (`gz_in`)
and the files after the creation. -/
def get_open (E : Env) (io : Faults) (from_path to_path : CString) (is_decompress : Bool)
    (w : World) : Except ArchiveError (Bytes × gzFile × World) :=
  let opened : Except ArchiveError (Bytes × gzFile) :=
    if !is_decompress then
      match fio_fopen io.fopen w from_path .FIO_BACKUP_HOST with
      | none => .error .cannotOpenSource
      | some inp => .ok (inp, ⟨none, false⟩)
    else
      match fio_gzopen_r E io.gzopen_r w (get_gz_source E from_path) .FIO_BACKUP_HOST with
      | none => .error .cannotOpenCompressed
      | some gz_in => .ok ([], gz_in)
  match opened with
  | .error e => .error e
  | .ok (inp, gz_in) =>
      -- open backup file for write
      match fio_open_excl E io.create w (get_temp E to_path) .FIO_DB_HOST with
      | none => .error .cannotOpenTemp
      | some w1 => .ok (inp, gz_in, w1)

/-- The function `get_wal_file(from_path, to_path)`: `from_path` is on the backup host,
`to_path` on the database host. -/
def get_wal_file (E : Env) (io : Faults) (from_path to_path : CString) (w : World) :
    Outcome :=
  -- First check source file for existance
  match get_probe E w from_path with
  | none => (w, .error .sourceDoesntExist)
  | some is_decompress =>
      let from_path_p := if is_decompress then get_gz_source E from_path else from_path
      match get_open E io from_path to_path is_decompress w with
      | .error e => (w, .error e)
      | .ok (inp, gz_in, w1) =>
          match get_copy E io is_decompress (get_temp E to_path)
              (inp.length + gz_fuel gz_in) 0 inp gz_in w1 with
          | (w2, .error e) => (w2, .error e)
          | (w2, .ok ()) =>
              get_finish io from_path_p to_path (get_temp E to_path) is_decompress w2

/-! ## A concrete environment for the examples -/

/-- Modelled from the spec: one step of the 32-bit cyclic redundancy check (CRC-32C, the
variant `pgFileGetCRC(..., true, ...)` and `INIT_FILE_CRC32(true, ...)` select; not in
`src/`): the register after one more bit. -/
def crc32c_bit (c : Nat) : Nat :=
  if c % 2 = 1 then (c >>> 1) ^^^ 0x82F63B78 else c >>> 1

/-- Modelled from the spec: the CRC-32C register after one more byte. -/
def crc32c_byte (c : Nat) (b : Byte) : Nat :=
  crc32c_bit (crc32c_bit (crc32c_bit (crc32c_bit (crc32c_bit (crc32c_bit (crc32c_bit
    (crc32c_bit (c ^^^ b.val))))))))

/-- Modelled from the spec: the CRC-32C of a byte stream. -/
def crc32c (bs : Bytes) : Nat :=
  (bs.foldl crc32c_byte 0xFFFFFFFF) ^^^ 0xFFFFFFFF

/-- A stand-in for the stream codec in the examples: compressing puts the two magic bytes
of a gzip stream in front of the input, decompressing takes them off and rejects any
other content. -/
def example_compress (_level : Int) (x : Bytes) : Bytes :=
  31 :: 139 :: x

/-- The decompressing side of `example_compress`. -/
def example_decompress : Bytes → Option Bytes
  | 31 :: 139 :: x => some x
  | _ => none

/-- The environment of the examples: 8 kB blocks, 60 polling rounds, 1024-byte path
buffers, mode 0600 for new files, the stand-in codec and CRC-32C. -/
def example_env : Env where
  XLOG_BLCKSZ := 8192
  XLOG_BLCKSZ_pos := by decide
  PARTIAL_WAL_TIMER := 60
  MAXPGPATH := 1024
  FILE_PERMISSIONS := 0o600
  compress := example_compress
  decompress := example_decompress
  crc32 := crc32c

/-- An environment like `example_env` with 2-byte blocks, so that short files take
several rounds of the copy loops. -/
def small_block_env : Env :=
  { example_env with XLOG_BLCKSZ := 2, XLOG_BLCKSZ_pos := by decide }

/-- The source segment of the examples, on the database host. -/
def example_source : CString := "pg_wal/000000010000000000000001".toList

/-- The archive path of the examples, on the backup host. -/
def example_archive : CString := "wal/000000010000000000000001".toList

/-- The restore target of the examples, on the database host. -/
def example_restore : CString := "pg_wal/RECOVERYXLOG".toList

/-- A database host holding one five-byte segment, and an empty archive. -/
def example_world : World where
  db := fun p => if p = example_source then some ⟨[1, 2, 3, 4, 5], 0o600⟩ else none
  backup := fun _ => none

/-- A database host holding a segment of five zero bytes, and an archive that already
holds five other bytes under the plain archive path. -/
def collision_world : World where
  db := fun p => if p = example_source then some ⟨[0, 0, 0, 0, 0], 0o600⟩ else none
  backup := fun p =>
    if p = example_archive then some ⟨[1, 3, 131, 107, 242], 0o600⟩ else none

/-- A database host holding the five-byte segment, and an archive that already holds
the compressed bytes 9, 9 under the `.gz` destination name. -/
def differing_world : World where
  db := fun p => if p = example_source then some ⟨[1, 2, 3, 4, 5], 0o600⟩ else none
  backup := fun p =>
    if p = example_archive ++ ".gz".toList then some ⟨[31, 139, 9, 9], 0o600⟩ else none

/-- Faults for the examples: the write of the second block fails. -/
def second_write_fails : Faults :=
  { write := fun i => decide (i = 1) }

/-- A database host holding the five-byte segment, and an archive that holds other bytes
under the plain archive path and nothing under the `.gz` name. -/
def stale_plain_world : World where
  db := fun p => if p = example_source then some ⟨[1, 2, 3, 4, 5], 0o600⟩ else none
  backup := fun p => if p = example_archive then some ⟨[9], 0o640⟩ else none

/-- A database host holding the five-byte segment, and an archive that holds a
temporary file left under `<archive path>.part`. -/
def stale_part_world : World where
  db := fun p => if p = example_source then some ⟨[1, 2, 3, 4, 5], 0o600⟩ else none
  backup := fun p =>
    if p = example_archive ++ ".part".toList then some ⟨[7, 7, 7], 0o600⟩ else none

/-- Sizes for the examples: 10 at the first polling round, 5 at the second, 8 from the
third on. -/
def shrink_then_grow : Nat → Option Nat :=
  fun k => if k = 0 then some 10 else if k = 1 then some 5 else some 8

/-- Sizes for the examples: 5 at the first two polling rounds, 8 from the third on. -/
def grow_after_first : Nat → Option Nat :=
  fun k => if k ≤ 1 then some 5 else some 8

/-- An option string of `n + 1` one-letter options: `a a ... a`. -/
def repeated_options (n : Nat) : CString :=
  (List.replicate n "a ".toList).flatten ++ "a".toList

/-- A configuration with neither port nor config file, one thread, and an option string
of 249 options. -/
def threshold_options_config : RemoteConfig where
  proto := "ssh".toList
  port := none
  ssh_config := none
  ssh_options := some (repeated_options 248)
  host := "backup-host".toList
  path := none
  num_threads := 1

/-- A configuration with neither port nor config file, one thread, and an option string
of 254 options. -/
def long_options_config : RemoteConfig where
  proto := "ssh".toList
  port := none
  ssh_config := none
  ssh_options := some (repeated_options 253)
  host := "backup-host".toList
  path := none
  num_threads := 1

/-- A database host holding the five-byte segment, and an archive that holds the same
five bytes under the plain archive path and nothing under the `.gz` name. -/
def same_plain_world : World where
  db := fun p => if p = example_source then some ⟨[1, 2, 3, 4, 5], 0o600⟩ else none
  backup := fun p => if p = example_archive then some ⟨[1, 2, 3, 4, 5], 0o640⟩ else none

/-- A database host holding a segment of five zero bytes, and an archive that already
holds, compressed under the `.gz` name, five other bytes with the same CRC-32C. -/
def collision_gz_world : World where
  db := fun p => if p = example_source then some ⟨[0, 0, 0, 0, 0], 0o600⟩ else none
  backup := fun p =>
    if p = example_archive ++ ".gz".toList then
      some ⟨[31, 139, 1, 3, 131, 107, 242], 0o600⟩
    else none

/-! ## Theorems: `utils/remote.c` -/

theorem space_pieces_snoc (tok : CString) (c : Char) (rest : CString) (h : c ≠ ' ') :
    space_pieces tok (c :: rest) = space_pieces (tok ++ [c]) rest := by
  simp [space_pieces, h]

theorem split_options_loop_cons (max_options : Nat) (argv : List CString) (tok : CString)
    (in_quote c : Char) (rest : CString) :
    split_options_loop max_options argv tok in_quote (c :: rest) =
      if c = '\'' ∨ c = '"' then
        if in_quote = '\x00' then
          split_options_loop max_options argv (tok ++ [c]) c rest
        else if c = in_quote then
          match rest with
          | [] => split_options_loop max_options argv (tok ++ [c]) '\x00' []
          | d :: rest' =>
              if d ≠ in_quote then
                split_options_loop max_options argv (tok ++ [c]) '\x00' (d :: rest')
              else
                split_options_loop max_options argv (tok ++ [c, d]) in_quote rest'
        else
          split_options_loop max_options argv (tok ++ [c]) in_quote rest
      else if c = ' ' then
        if argv.length + 1 ≥ max_options then .error .tooMuchOptions
        else split_options_loop max_options (argv ++ [tok]) [] in_quote rest
      else
        split_options_loop max_options argv (tok ++ [c]) in_quote rest := by
  cases rest <;> rfl

theorem split_options_loop_nil (max_options : Nat) (argv : List CString) (tok : CString)
    (in_quote : Char) :
    split_options_loop max_options argv tok in_quote [] =
      if space_pieces tok [] = [] ∨
          argv.length + (space_pieces tok []).length < max_options then
        .ok (argv ++ space_pieces tok [])
      else .error .tooMuchOptions := by
  by_cases ht : tok = []
  · simp [split_options_loop, space_pieces, ht]
  · by_cases hm : argv.length + 1 < max_options
    · simp [split_options_loop, space_pieces, ht, hm, Nat.not_le.mpr hm]
    · simp [split_options_loop, space_pieces, ht, hm, Nat.not_lt.mp hm]

/-- The loop of `split_options` never consults `in_quote` when it ends a token: whatever
the quote state, it cuts the text at every space, and fails exactly when a token is
stored at an index that makes `argc` reach `max_options`. -/
theorem split_options_loop_eq (max_options : Nat) :
    ∀ (n : Nat) (rest : CString), rest.length ≤ n →
      ∀ (argv : List CString) (tok : CString) (in_quote : Char),
        split_options_loop max_options argv tok in_quote rest =
          if space_pieces tok rest = [] ∨
              argv.length + (space_pieces tok rest).length < max_options then
            .ok (argv ++ space_pieces tok rest)
          else .error .tooMuchOptions := by
  intro n
  induction n with
  | zero =>
      intro rest hlen argv tok in_quote
      have hnil : rest = [] := List.length_eq_zero.mp (Nat.le_zero.mp hlen)
      subst hnil
      exact split_options_loop_nil max_options argv tok in_quote
  | succ n ih =>
      intro rest hlen argv tok in_quote
      cases rest with
      | nil => exact split_options_loop_nil max_options argv tok in_quote
      | cons c rest =>
          have hrest : rest.length ≤ n := by simpa using hlen
          rw [split_options_loop_cons]
          by_cases hq : c = '\'' ∨ c = '"'
          · have hsp : c ≠ ' ' := by
              rcases hq with h | h <;> subst h <;> decide
            rw [space_pieces_snoc tok c rest hsp, if_pos hq]
            by_cases h0 : in_quote = '\x00'
            · rw [if_pos h0]
              exact ih rest hrest argv (tok ++ [c]) c
            · rw [if_neg h0]
              by_cases hc : c = in_quote
              · rw [if_pos hc]
                cases rest with
                | nil => exact ih [] (Nat.zero_le n) argv (tok ++ [c]) '\x00'
                | cons d rest' =>
                    have hrest' : rest'.length ≤ n := by
                      simp only [List.length_cons] at hrest; omega
                    by_cases hd : d = in_quote
                    · have hdsp : d ≠ ' ' := by rw [hd, ← hc]; exact hsp
                      simp only [hd, ne_eq, not_true_eq_false, if_false]
                      rw [← hd, space_pieces_snoc (tok ++ [c]) d rest' hdsp,
                        ih rest' hrest' argv (tok ++ [c, d]) d]
                      simp
                    · simp only [ne_eq, hd, not_false_eq_true, if_true]
                      exact ih (d :: rest') hrest argv (tok ++ [c]) '\x00'
              · rw [if_neg hc]
                exact ih rest hrest argv (tok ++ [c]) in_quote
          · rw [if_neg hq]
            by_cases hs : c = ' '
            · subst hs
              rw [if_pos rfl]
              have hp : space_pieces tok (' ' :: rest) = tok :: space_pieces [] rest := by
                simp [space_pieces]
              rw [hp]
              by_cases hm : argv.length + 1 < max_options
              · rw [if_neg (Nat.not_le.mpr hm), ih rest hrest (argv ++ [tok]) [] in_quote]
                by_cases hn : space_pieces [] rest = []
                · simp [hn, hm]
                · simp [hn, Nat.add_assoc, Nat.add_comm 1]
              · rw [if_pos (Nat.not_lt.mp hm)]
                have : ¬ argv.length + ((space_pieces [] rest).length + 1) < max_options := by
                  omega
                simp [this]
            · rw [if_neg hs, space_pieces_snoc tok c rest hs]
              exact ih rest hrest argv (tok ++ [c]) in_quote

theorem space_pieces_length_le (tok rest : CString) :
    (space_pieces tok rest).length ≤ rest.count ' ' + 1 := by
  induction rest generalizing tok with
  | nil =>
      by_cases h : tok = [] <;> simp [space_pieces, h]
  | cons c rest ih =>
      by_cases hc : c = ' '
      · subst hc
        have := ih []
        simp only [space_pieces, if_true, List.length_cons, List.count_cons_self]
        omega
      · have := ih (tok ++ [c])
        simp only [space_pieces, hc, if_false]
        rw [List.count_cons_of_ne (Ne.symm hc)]
        exact this

theorem split_options_eq (argv : List CString) (max_options : Nat) (options : CString) :
    split_options argv max_options options =
      if space_pieces [] options = [] ∨
          argv.length + (space_pieces [] options).length < max_options then
        .ok (argv ++ space_pieces [] options)
      else .error .tooMuchOptions :=
  split_options_loop_eq max_options options.length options (Nat.le_refl _) argv [] '\x00'

theorem strrchr_eq_none (s : CString) (c : Char) : strrchr s c = none ↔ c ∉ s := by
  induction s with
  | nil => simp [strrchr]
  | cons x xs ih =>
      cases h : strrchr xs c with
      | none =>
          have hc : c ∉ xs := ih.mp h
          by_cases hx : x = c
          · simp [strrchr, h, hx]
          · simp [strrchr, h, hx, hc, Ne.symm hx]
      | some r =>
          have hc : ¬ c ∉ xs := fun hn => by rw [ih.mpr hn] at h; cases h
          have hc' : c ∈ xs := not_not.mp hc
          simp [strrchr, h, hc']

/-- What lines 101-104 of `launch_agent` leave in `pg_probackup` is the basename of the
specification. -/
theorem strrchr_basename (p : CString) :
    (match strrchr p '/' with
      | some sep => sep.tail
      | none => p) = spec_basename p := by
  induction p with
  | nil => simp [strrchr, spec_basename]
  | cons x xs ih =>
      cases h : strrchr xs '/' with
      | none =>
          have hc : '/' ∉ xs := (strrchr_eq_none xs '/').mp h
          have hall : ∀ a ∈ xs.reverse, (fun c : Char => decide (c ≠ '/')) a = true := by
            intro a ha
            have : a ≠ '/' := fun e => hc (e ▸ List.mem_reverse.mp ha)
            simpa using this
          have hsp : spec_basename (x :: xs) =
              (xs.reverse ++ List.takeWhile (fun c : Char => decide (c ≠ '/')) [x]).reverse := by
            unfold spec_basename
            rw [List.reverse_cons, List.takeWhile_append_of_pos hall]
          rw [hsp]
          by_cases hx : x = '/'
          · simp [strrchr, h, hx]
          · simp [strrchr, h, hx]
      | some r =>
          have hc : '/' ∈ xs := by
            by_contra hn
            rw [(strrchr_eq_none xs '/').mpr hn] at h
            cases h
          rw [h] at ih
          have hsp : spec_basename (x :: xs) = spec_basename xs := by
            unfold spec_basename
            rw [List.reverse_cons, List.takeWhile_append]
            have hne : ¬ (List.takeWhile (fun c : Char => decide (c ≠ '/')) xs.reverse).length =
                xs.reverse.length := by
              intro hlen
              have hself : List.takeWhile (fun c : Char => decide (c ≠ '/')) xs.reverse =
                  xs.reverse :=
                (List.takeWhile_prefix _).eq_of_length hlen
              have := (List.takeWhile_eq_self_iff.mp hself) '/' (List.mem_reverse.mpr hc)
              simp at this
            rw [if_neg hne]
          simp only [strrchr, h]
          rw [hsp]
          exact ih

theorem launch_agent_cmd_eq_spec_take (remote_path : Option CString)
    (pg_probackup PROGRAM_VERSION : CString) :
    launch_agent_cmd remote_path pg_probackup PROGRAM_VERSION =
      match remote_path with
      | some path =>
          (path ++ "/".toList ++ spec_basename pg_probackup ++ " agent ".toList ++
            PROGRAM_VERSION).take (MAX_CMDLINE_LENGTH - 1)
      | none =>
          (pg_probackup ++ " agent ".toList ++ PROGRAM_VERSION).take
            (MAX_CMDLINE_LENGTH - 1) := by
  cases remote_path with
  | none => rfl
  | some path =>
      simp only [launch_agent_cmd, snprintf]
      rw [strrchr_basename]

/-- C7, evaluated on the code: on the option string `a 'b c' "d""e" f` and an empty
argument vector `split_options` returns 5, not 4: it ends a token at the space inside
`'b c'` and leaves every quote character in place, so the arguments are `a`, `'b`, `c'`,
`"d""e"` and `f`. -/
theorem split_options_quoted_example :
    split_options [] MAX_CMDLINE_OPTIONS "a 'b c' \"d\"\"e\" f".toList =
        .ok ["a".toList, "'b".toList, "c'".toList, "\"d\"\"e\"".toList, "f".toList] ∧
      split_options_argc [] MAX_CMDLINE_OPTIONS "a 'b c' \"d\"\"e\" f".toList = .ok 5 ∧
      split_options [] MAX_CMDLINE_OPTIONS "a 'b c' \"d\"\"e\" f".toList ≠
        .ok ["a".toList, "b c".toList, "d\"e".toList, "f".toList] := by
  decide

/-- C9 as stated fails: with no remote path configured and the program path
`/usr/bin/pg_probackup`, the command string keeps the whole path; it is not
`pg_probackup agent 2.1.3`.  And with a remote path `/opt` and a program name of 5000
characters the command string is cut to 4095 characters; it is not the longer string
`/opt/<name> agent 2.1.3`. -/
theorem launch_agent_cmd_keeps_directory :
    launch_agent_cmd none "/usr/bin/pg_probackup".toList "2.1.3".toList =
        "/usr/bin/pg_probackup agent 2.1.3".toList ∧
      spec_remote_cmd none "/usr/bin/pg_probackup".toList "2.1.3".toList =
        "pg_probackup agent 2.1.3".toList ∧
      launch_agent_cmd none "/usr/bin/pg_probackup".toList "2.1.3".toList ≠
        spec_remote_cmd none "/usr/bin/pg_probackup".toList "2.1.3".toList ∧
      (launch_agent_cmd (some "/opt".toList) (List.replicate 5000 'a')
        "2.1.3".toList).length = 4095 ∧
      (spec_remote_cmd (some "/opt".toList) (List.replicate 5000 'a')
        "2.1.3".toList).length = 5017 := by
  have hb : spec_basename (List.replicate 5000 'a') = List.replicate 5000 'a' := by
    unfold spec_basename
    rw [List.reverse_replicate, List.takeWhile_eq_self_iff.mpr, List.reverse_replicate]
    intro x hx
    rw [List.eq_of_mem_replicate hx]
    decide
  have h1 : "/opt".toList.length = 4 := by decide
  have h2 : "/".toList.length = 1 := by decide
  have h3 : " agent ".toList.length = 7 := by decide
  have h4 : "2.1.3".toList.length = 5 := by decide
  refine ⟨by decide, by decide, by decide, ?_, ?_⟩
  · rw [launch_agent_cmd_eq_spec_take (some "/opt".toList) (List.replicate 5000 'a')
      "2.1.3".toList]
    simp only [hb, List.length_take, List.length_append, List.length_replicate, h1, h2, h3,
      h4, MAX_CMDLINE_LENGTH]
    decide
  · simp only [spec_remote_cmd, hb, List.length_append, List.length_replicate, h1, h2, h3, h4]

/-- C9, amended: with a remote path configured the command string is the first
`MAX_CMDLINE_LENGTH - 1` characters of `<remote-path>/<basename> agent <version>`,
where `<basename>` is the part of the program path after its last `/`; with none
configured it is the first `MAX_CMDLINE_LENGTH - 1` characters of
`<pg_probackup> agent <version>` with the program path as given, directories included.
In both cases it fits in `MAX_CMDLINE_LENGTH` with its terminating NUL. -/
theorem launch_agent_cmd_spec (remote_path : Option CString)
    (pg_probackup PROGRAM_VERSION : CString) :
    launch_agent_cmd remote_path pg_probackup PROGRAM_VERSION =
        (match remote_path with
          | some path =>
              (path ++ "/".toList ++ spec_basename pg_probackup ++ " agent ".toList ++
                PROGRAM_VERSION).take (MAX_CMDLINE_LENGTH - 1)
          | none =>
              (pg_probackup ++ " agent ".toList ++ PROGRAM_VERSION).take
                (MAX_CMDLINE_LENGTH - 1)) ∧
      (launch_agent_cmd remote_path pg_probackup PROGRAM_VERSION).length + 1 ≤
        MAX_CMDLINE_LENGTH := by
  constructor
  · exact launch_agent_cmd_eq_spec_take remote_path pg_probackup PROGRAM_VERSION
  · have hlen : ∀ s : CString, (snprintf MAX_CMDLINE_LENGTH s).length + 1 ≤
        MAX_CMDLINE_LENGTH := by
      intro s
      simp only [snprintf, MAX_CMDLINE_LENGTH, List.length_take]
      omega
    cases remote_path with
    | none => exact hlen _
    | some path => exact hlen _

/-! ## Lemmas: the location router -/

@[simp] theorem World.fs_db (w : World) : w.fs .FIO_DB_HOST = w.db := rfl

@[simp] theorem World.fs_backup (w : World) : w.fs .FIO_BACKUP_HOST = w.backup := rfl

@[simp] theorem World.put_db_db (w : World) (fs : FileSystem) :
    (w.put .FIO_DB_HOST fs).db = fs := rfl

@[simp] theorem World.put_db_backup (w : World) (fs : FileSystem) :
    (w.put .FIO_DB_HOST fs).backup = w.backup := rfl

@[simp] theorem World.put_backup_db (w : World) (fs : FileSystem) :
    (w.put .FIO_BACKUP_HOST fs).db = w.db := rfl

@[simp] theorem World.put_backup_backup (w : World) (fs : FileSystem) :
    (w.put .FIO_BACKUP_HOST fs).backup = fs := rfl

@[simp] theorem World.put_put (w : World) (location : fio_location) (a b : FileSystem) :
    (w.put location a).put location b = w.put location b := by
  cases location <;> rfl

@[simp] theorem FileSystem.update_same (fs : FileSystem) (p : CString) (f : Option File) :
    fs.update p f p = f := by
  simp [FileSystem.update]

theorem FileSystem.update_of_ne (fs : FileSystem) (p q : CString) (f : Option File)
    (h : q ≠ p) : fs.update p f q = fs q := by
  simp [FileSystem.update, h]

theorem take_length_pos (E : Env) (inp : Bytes) :
    (List.take E.XLOG_BLCKSZ inp).length > 0 ↔ inp ≠ [] := by
  have hB := E.XLOG_BLCKSZ_pos
  cases inp with
  | nil => simp
  | cons a l =>
      simp only [List.length_take, List.length_cons, ne_eq, reduceCtorEq, not_false_eq_true,
        iff_true]
      omega

theorem drop_length_lt (E : Env) (inp : Bytes) (h : inp ≠ []) :
    (List.drop E.XLOG_BLCKSZ inp).length < inp.length := by
  have hB := E.XLOG_BLCKSZ_pos
  have : 0 < inp.length := List.length_pos.mpr h
  simp only [List.length_drop]
  omega

/-! ## Lemmas: `push_wal_file` -/

/-- The copy loop of `push_wal_file` touches the temporary file only; when it raises an
error the temporary file is gone; with an iteration budget above the length of the
source it ends, and on normal exit everything read went to the temporary file (plain)
or to the compressing stream. -/
theorem push_copy_spec (E : Env) (io : Faults) (c : Bool) (temp : CString) :
    ∀ (fuel i : Nat) (inp g : Bytes) (w : World),
      (push_copy E io c temp fuel i inp g w).1.db = w.db ∧
      (∀ q, q ≠ temp → (push_copy E io c temp fuel i inp g w).1.backup q = w.backup q) ∧
      (∀ e, (push_copy E io c temp fuel i inp g w).2 = .error e → e ≠ .outOfFuel →
        (push_copy E io c temp fuel i inp g w).1.backup temp = none) ∧
      (inp.length < fuel →
        (push_copy E io c temp fuel i inp g w).2 ≠ .error .outOfFuel) ∧
      (∀ g2, (push_copy E io c temp fuel i inp g w).2 = .ok g2 →
        g2 = g ++ (if c then inp else []) ∧
        (push_copy E io c temp fuel i inp g w).1.backup temp =
          (w.backup temp).map
            (fun f => ⟨f.content ++ (if c then [] else inp), f.mode⟩)) := by
  intro fuel
  induction fuel with
  | zero =>
      intro i inp g w
      simp [push_copy]
  | succ fuel ih =>
      intro i inp g w
      by_cases hr : io.fread i = true
      · simp only [push_copy, hr, if_true]
        refine ⟨rfl, ?_, ?_, ?_, ?_⟩
        · intro q hq
          simp [fio_unlink, FileSystem.update_of_ne _ _ _ _ hq]
        · intro e _ _
          simp [fio_unlink]
        · intro _ h
          cases h
        · intro g2 h
          cases h
      · by_cases hnil : inp = []
        · subst hnil
          cases hw : w.backup temp <;> simp [push_copy, hr, hw]
        · have hpos : (List.take E.XLOG_BLCKSZ inp).length > 0 :=
            (take_length_pos E inp).mpr hnil
          have hdrop := drop_length_lt E inp hnil
          by_cases hwr : io.write i = true
          · simp only [push_copy, hr, hpos, hwr, if_true, if_false, Bool.false_eq_true]
            refine ⟨rfl, ?_, ?_, ?_, ?_⟩
            · intro q hq
              simp [fio_unlink, FileSystem.update_of_ne _ _ _ _ hq]
            · intro e _ _
              simp [fio_unlink]
            · intro _
              cases c <;> simp
            · intro g2 h
              cases h
          · cases c with
            | true =>
                simp only [push_copy, hr, hpos, hwr, if_true, if_false, Bool.false_eq_true]
                obtain ⟨h1, h2, h3, h4, h5⟩ :=
                  ih (i + 1) (List.drop E.XLOG_BLCKSZ inp)
                    (g ++ List.take E.XLOG_BLCKSZ inp) w
                refine ⟨h1, h2, h3, fun hlt => h4 (by omega), ?_⟩
                intro g2 hg2
                obtain ⟨e1, e2⟩ := h5 g2 hg2
                refine ⟨?_, ?_⟩
                · rw [e1]
                  simp [List.append_assoc, List.take_append_drop]
                · rw [e2]
                  simp
            | false =>
                simp only [push_copy, hr, hpos, hwr, if_true, if_false, Bool.false_eq_true]
                obtain ⟨h1, h2, h3, h4, h5⟩ :=
                  ih (i + 1) (List.drop E.XLOG_BLCKSZ inp) g
                    (fio_write w temp (List.take E.XLOG_BLCKSZ inp) .FIO_BACKUP_HOST)
                refine ⟨?_, ?_, h3, fun hlt => h4 (by omega), ?_⟩
                · rw [h1]
                  simp [fio_write]
                · intro q hq
                  rw [h2 q hq]
                  simp [fio_write, FileSystem.update_of_ne _ _ _ _ hq]
                · intro g2 hg2
                  obtain ⟨e1, e2⟩ := h5 g2 hg2
                  refine ⟨by simpa using e1, ?_⟩
                  rw [e2]
                  cases hw : w.backup temp with
                  | none => simp [fio_write, hw]
                  | some f =>
                      simp [fio_write, hw, List.append_assoc, List.take_append_drop]

theorem stale_poll_succ (st : Nat → Option Nat) (rounds count : Nat) (size : Int) :
    stale_poll st (rounds + 1) count size =
      match st count with
      | none => .error .cannotStatTemp
      | some st_size =>
          if (st_size : Int) > (if count = 0 then off_t_to_int (st_size : Int) else size) then
            .error .notStale
          else
            stale_poll st rounds (count + 1)
              (if count = 0 then off_t_to_int (st_size : Int) else size) := rfl

theorem stale_poll_error (st : Nat → Option Nat) :
    ∀ (rounds count : Nat) (size : Int) (e : ArchiveError),
      stale_poll st rounds count size = .error e → e = .cannotStatTemp ∨ e = .notStale := by
  intro rounds
  induction rounds with
  | zero =>
      intro count size e h
      simp [stale_poll] at h
  | succ rounds ih =>
      intro count size e h
      rw [stale_poll_succ] at h
      cases hs : st count with
      | none =>
          rw [hs] at h
          exact Or.inl (by cases h; rfl)
      | some sz =>
          rw [hs] at h
          by_cases hgt : (sz : Int) > (if count = 0 then off_t_to_int (sz : Int) else size)
          · simp only [hgt, if_true] at h
            exact Or.inr (by cases h; rfl)
          · simp only [hgt, if_false] at h
            exact ih _ _ e h

/-- Lines 180-262 of `push_wal_file` touch the temporary file only; on normal exit the
temporary file is new and empty; an error of the polling loop leaves every file as it
was. -/
theorem push_open_temp_spec (E : Env) (io : Faults) (sizes : Nat → Option Nat)
    (temp : CString) (w : World) :
    (push_open_temp E io sizes temp w).1.db = w.db ∧
      (∀ q, q ≠ temp → (push_open_temp E io sizes temp w).1.backup q = w.backup q) ∧
      ((push_open_temp E io sizes temp w).2 = .ok () →
        (push_open_temp E io sizes temp w).1.backup temp =
          some ⟨[], E.FILE_PERMISSIONS⟩) ∧
      (∀ e, (push_open_temp E io sizes temp w).2 = .error e →
        e = .cannotStatTemp ∨ e = .notStale ∨ e = .cannotOpenTemp) ∧
      (∀ e, (push_open_temp E io sizes temp w).2 = .error e →
        e = .cannotStatTemp ∨ e = .notStale → (push_open_temp E io sizes temp w).1 = w) := by
  unfold push_open_temp
  cases h1 : fio_open_excl E io.create w temp .FIO_BACKUP_HOST with
  | some w' =>
      unfold fio_open_excl at h1
      split at h1
      · cases h1
      · cases h1
        refine ⟨rfl, ?_, ?_, ?_, ?_⟩
        · intro q hq
          simp [FileSystem.update_of_ne _ _ _ _ hq]
        · intro _
          simp
        · intro e h
          cases h
        · intro e h
          cases h
  | none =>
      simp only
      cases h2 : stale_poll (fun k => if fileExists w temp .FIO_BACKUP_HOST = true then sizes k
          else none) E.PARTIAL_WAL_TIMER 0 0 with
      | error e' =>
          refine ⟨rfl, fun _ _ => rfl, ?_, ?_, ?_⟩
          · intro h
            cases h
          · intro e h
            cases h
            rcases stale_poll_error _ _ _ _ _ h2 with h | h
            · exact Or.inl h
            · exact Or.inr (Or.inl h)
          · intro _ _ _
            rfl
      | ok u =>
          cases u
          simp only
          cases h3 : fio_open_excl E io.recreate (fio_unlink w temp .FIO_BACKUP_HOST) temp
              .FIO_BACKUP_HOST with
          | none =>
              refine ⟨rfl, ?_, ?_, ?_, ?_⟩
              · intro q hq
                simp [fio_unlink, FileSystem.update_of_ne _ _ _ _ hq]
              · intro h
                cases h
              · intro e h
                cases h
                exact Or.inr (Or.inr rfl)
              · intro e h hh
                cases h
                rcases hh with hh | hh <;> cases hh
          | some w2 =>
              unfold fio_open_excl at h3
              split at h3
              · cases h3
              · cases h3
                refine ⟨rfl, ?_, ?_, ?_, ?_⟩
                · intro q hq
                  simp [fio_unlink, FileSystem.update_of_ne _ _ _ _ hq]
                · intro _
                  simp
                · intro e h
                  cases h
                · intro e h
                  cases h

/-- The two ways `copy_file_attributes` ends when `unlink_on_error` is set: an error
after the target was unlinked, or normal return with the mode of the source on the
target. -/
theorem copy_file_attributes_cases (io : Faults) (w : World) (from_path : CString)
    (from_location : fio_location) (to_path : CString) (to_location : fio_location) :
    (∃ e, copy_file_attributes io w from_path from_location to_path to_location true =
          (fio_unlink w to_path to_location, .error e) ∧
        (e = .cannotStatFile ∨ e = .cannotChmod)) ∨
      (∃ src f, w.fs from_location from_path = some src ∧
        w.fs to_location to_path = some f ∧ io.stat = false ∧ io.chmod = false ∧
        copy_file_attributes io w from_path from_location to_path to_location true =
          (w.put to_location ((w.fs to_location).update to_path
            (some { f with mode := src.mode })), .ok ())) := by
  unfold copy_file_attributes fio_stat fio_chmod
  cases hs : io.stat with
  | true => exact Or.inl ⟨_, by simp, Or.inl rfl⟩
  | false =>
      cases hsrc : w.fs from_location from_path with
      | none => exact Or.inl ⟨_, by simp, Or.inl rfl⟩
      | some src =>
          cases hc : io.chmod with
          | true => exact Or.inl ⟨_, by simp, Or.inr rfl⟩
          | false =>
              cases hf : w.fs to_location to_path with
              | none => exact Or.inl ⟨_, by simp, Or.inr rfl⟩
              | some f => exact Or.inr ⟨src, f, rfl, rfl, rfl, rfl, by simp⟩

/-- Lines 310-350 of `push_wal_file`: an error leaves no temporary file and touches no
other path; normal return puts the finished file, with the mode of the source, under
the destination name. -/
theorem push_finish_spec (E : Env) (io : Faults) (from_path dest temp : CString)
    (c : Bool) (lvl : Int) (g : Bytes) (w : World) :
    (push_finish E io from_path dest temp c lvl g w).1.db = w.db ∧
      (∀ e, (push_finish E io from_path dest temp c lvl g w).2 = .error e →
        (push_finish E io from_path dest temp c lvl g w).1.backup temp = none ∧
        (∀ q, q ≠ temp →
          (push_finish E io from_path dest temp c lvl g w).1.backup q = w.backup q) ∧
        (e = .cannotCloseCompressed ∨ e = .cannotWrite ∨ e = .cannotCloseSource ∨
          e = .cannotStatFile ∨ e = .cannotChmod ∨ e = .cannotRename)) ∧
      ((push_finish E io from_path dest temp c lvl g w).2 = .ok () →
        ∃ f src, w.backup temp = some f ∧ w.db from_path = some src ∧
          (push_finish E io from_path dest temp c lvl g w).1.backup dest =
            some ⟨f.content ++ (if c then E.compress lvl g else []), src.mode⟩ ∧
          (∀ q, q ≠ temp → q ≠ dest →
            (push_finish E io from_path dest temp c lvl g w).1.backup q = w.backup q) ∧
          (temp ≠ dest →
            (push_finish E io from_path dest temp c lvl g w).1.backup temp = none)) := by
  unfold push_finish
  -- the world after the streams are closed
  cases hclosed : (if c = true then
      if io.gzclose_w = true then none
      else some (fio_write w temp (E.compress lvl g) .FIO_BACKUP_HOST)
    else if io.flush = true ∨ io.close = true then none else some w) with
  | none =>
      simp only
      refine ⟨rfl, ?_, ?_⟩
      · intro e h
        refine ⟨by simp [fio_unlink], ?_, ?_⟩
        · intro q hq
          simp [fio_unlink, FileSystem.update_of_ne _ _ _ _ hq]
        · cases c <;> simp at h <;> simp [← h]
      · intro h
        cases h
  | some w1 =>
      have hw1db : w1.db = w.db := by
        cases c
        · simp only [Bool.false_eq_true, if_false] at hclosed
          split at hclosed
          · cases hclosed
          · cases hclosed; rfl
        · simp only [if_true] at hclosed
          split at hclosed
          · cases hclosed
          · cases hclosed; rfl
      have hw1q : ∀ q, q ≠ temp → w1.backup q = w.backup q := by
        intro q hq
        cases c
        · simp only [Bool.false_eq_true, if_false] at hclosed
          split at hclosed
          · cases hclosed
          · cases hclosed; rfl
        · simp only [if_true] at hclosed
          split at hclosed
          · cases hclosed
          · cases hclosed
            simp [fio_write, FileSystem.update_of_ne _ _ _ _ hq]
      have hw1t : w1.backup temp = (w.backup temp).map
          (fun f => ⟨f.content ++ (if c then E.compress lvl g else []), f.mode⟩) := by
        cases c
        · simp only [Bool.false_eq_true, if_false] at hclosed
          split at hclosed
          · cases hclosed
          · cases hclosed
            cases w.backup temp <;> simp
        · simp only [if_true] at hclosed
          split at hclosed
          · cases hclosed
          · cases hclosed
            simp [fio_write]
      simp only
      by_cases hfc : io.fclose = true
      · simp only [hfc, if_true]
        refine ⟨by simp [fio_unlink, hw1db], ?_, ?_⟩
        · intro e h
          refine ⟨by simp [fio_unlink], ?_, ?_⟩
          · intro q hq
            simp [fio_unlink, FileSystem.update_of_ne _ _ _ _ hq, hw1q q hq]
          · cases h
            simp
        · intro h
          cases h
      · simp only [hfc, if_false, Bool.false_eq_true]
        rcases copy_file_attributes_cases io w1 from_path .FIO_DB_HOST temp
            .FIO_BACKUP_HOST with ⟨e', he', hlist⟩ | ⟨src, f1, hsrc, hf1, _, _, hcfa⟩
        · rw [he']
          refine ⟨by simp [fio_unlink, hw1db], ?_, ?_⟩
          · intro e h
            cases h
            refine ⟨by simp [fio_unlink], ?_, ?_⟩
            · intro q hq
              simp [fio_unlink, FileSystem.update_of_ne _ _ _ _ hq, hw1q q hq]
            · rcases hlist with h | h <;> simp [h]
          · intro h
            cases h
        · rw [hcfa]
          simp only [World.fs_db, World.fs_backup] at hsrc hf1
          simp only [World.fs_backup]
          by_cases hrn : io.rename = true
          · simp only [fio_rename, hrn, if_true]
            refine ⟨by simp [fio_unlink, hw1db], ?_, ?_⟩
            · intro e h
              cases h
              refine ⟨by simp [fio_unlink], ?_, by simp⟩
              intro q hq
              simp [fio_unlink, FileSystem.update_of_ne _ _ _ _ hq, hw1q q hq]
            · intro h
              cases h
          · simp only [fio_rename, hrn, if_false, Bool.false_eq_true, World.fs_backup,
              World.put_backup_backup, FileSystem.update_same]
            refine ⟨by simp [hw1db], ?_, ?_⟩
            · intro e h
              cases h
            · intro _
              rw [hw1t] at hf1
              cases hwt : w.backup temp with
              | none => simp [hwt] at hf1
              | some f =>
                  simp only [hwt, Option.map_some', Option.some.injEq] at hf1
                  refine ⟨f, src, rfl, by rw [← hw1db]; exact hsrc, ?_, ?_, ?_⟩
                  · simp [← hf1]
                  · intro q hq hqd
                    simp [FileSystem.update_of_ne _ _ _ _ hq,
                      FileSystem.update_of_ne _ _ _ _ hqd, hw1q q hq]
                  · intro hne
                    simp [FileSystem.update_of_ne _ _ _ _ hne]

/-! ## Lemmas: `fileEqualCRC` -/

theorem fileEqualCRC_loop_succ (io : Faults) (fuel i : Nat) (gz_in : gzFile) (crc2 : Bytes) :
    fileEqualCRC_loop io (fuel + 1) i gz_in crc2 =
      if ((fio_gzread (io.gzread i) gz_in 1024).1 = true ∨
            (fio_gzread (io.gzread i) gz_in 1024).2.1.length = 0) ∧
          (fio_gzread (io.gzread i) gz_in 1024).2.2.eof = false then .ok none
      else if (fio_gzread (io.gzread i) gz_in 1024).2.2.eof = true ∨
          (¬ (fio_gzread (io.gzread i) gz_in 1024).1 = true ∧
            (fio_gzread (io.gzread i) gz_in 1024).2.1.length = 0) then
        .ok (some (crc2 ++ (fio_gzread (io.gzread i) gz_in 1024).2.1))
      else
        fileEqualCRC_loop io fuel (i + 1) (fio_gzread (io.gzread i) gz_in 1024).2.2
          (crc2 ++ (fio_gzread (io.gzread i) gz_in 1024).2.1) := rfl

/-- The checksum loop of `fileEqualCRC` either gives up (`return false`) or has read the
whole decompressed stream; without faults it reads the whole stream. -/
theorem fileEqualCRC_loop_spec (io : Faults) :
    ∀ (fuel i : Nat) (gz : gzFile) (acc : Bytes), gz.eof = false →
      (gz.stream = none → 0 < fuel → fileEqualCRC_loop io fuel i gz acc = .ok none) ∧
      (∀ rest, gz.stream = some rest → rest.length < fuel →
        (fileEqualCRC_loop io fuel i gz acc = .ok (some (acc ++ rest)) ∨
          fileEqualCRC_loop io fuel i gz acc = .ok none) ∧
        ((∀ j, io.gzread j = false) →
          fileEqualCRC_loop io fuel i gz acc = .ok (some (acc ++ rest)))) := by
  intro fuel
  induction fuel with
  | zero =>
      intro i gz acc _
      exact ⟨fun _ h => absurd h (Nat.lt_irrefl 0), fun rest _ h => absurd h (Nat.not_lt_zero _)⟩
  | succ fuel ih =>
      intro i gz acc heof
      obtain ⟨stream, eof⟩ := gz
      simp only at heof
      subst heof
      constructor
      · intro hs _
        simp only at hs
        subst hs
        rw [fileEqualCRC_loop_succ]
        simp [fio_gzread]
      · intro rest hs hlen
        simp only at hs
        subst hs
        rw [fileEqualCRC_loop_succ]
        by_cases hf : io.gzread i = true
        · refine ⟨Or.inr (by simp [fio_gzread, hf]), ?_⟩
          intro hall
          rw [hall i] at hf
          cases hf
        · have hf' : io.gzread i = false := by simpa using hf
          by_cases hshort : rest.length < 1024
          · have htake : List.take 1024 rest = rest := List.take_of_length_le (by omega)
            have hres : (if ((fio_gzread (io.gzread i) ⟨some rest, false⟩ 1024).1 = true ∨
                  (fio_gzread (io.gzread i) ⟨some rest, false⟩ 1024).2.1.length = 0) ∧
                (fio_gzread (io.gzread i) ⟨some rest, false⟩ 1024).2.2.eof = false
                then (.ok none : Except ArchiveError (Option Bytes))
              else if (fio_gzread (io.gzread i) ⟨some rest, false⟩ 1024).2.2.eof = true ∨
                  (¬ (fio_gzread (io.gzread i) ⟨some rest, false⟩ 1024).1 = true ∧
                    (fio_gzread (io.gzread i) ⟨some rest, false⟩ 1024).2.1.length = 0) then
                .ok (some (acc ++ (fio_gzread (io.gzread i) ⟨some rest, false⟩ 1024).2.1))
              else
                fileEqualCRC_loop io fuel (i + 1)
                  (fio_gzread (io.gzread i) ⟨some rest, false⟩ 1024).2.2
                  (acc ++ (fio_gzread (io.gzread i) ⟨some rest, false⟩ 1024).2.1)) =
                .ok (some (acc ++ rest)) := by
              simp [fio_gzread, hf', hshort, htake]
            rw [hres]
            exact ⟨Or.inl rfl, fun _ => rfl⟩
          · have hne : (List.take 1024 rest).length ≠ 0 := by
              simp only [List.length_take]; omega
            have hstep : (if ((fio_gzread (io.gzread i) ⟨some rest, false⟩ 1024).1 = true ∨
                  (fio_gzread (io.gzread i) ⟨some rest, false⟩ 1024).2.1.length = 0) ∧
                (fio_gzread (io.gzread i) ⟨some rest, false⟩ 1024).2.2.eof = false
                then (.ok none : Except ArchiveError (Option Bytes))
              else if (fio_gzread (io.gzread i) ⟨some rest, false⟩ 1024).2.2.eof = true ∨
                  (¬ (fio_gzread (io.gzread i) ⟨some rest, false⟩ 1024).1 = true ∧
                    (fio_gzread (io.gzread i) ⟨some rest, false⟩ 1024).2.1.length = 0) then
                .ok (some (acc ++ (fio_gzread (io.gzread i) ⟨some rest, false⟩ 1024).2.1))
              else
                fileEqualCRC_loop io fuel (i + 1)
                  (fio_gzread (io.gzread i) ⟨some rest, false⟩ 1024).2.2
                  (acc ++ (fio_gzread (io.gzread i) ⟨some rest, false⟩ 1024).2.1)) =
                fileEqualCRC_loop io fuel (i + 1) ⟨some (List.drop 1024 rest), false⟩
                  (acc ++ List.take 1024 rest) := by
              have hlen0 : ¬ (List.take 1024 rest).length = 0 := hne
              simp only [fio_gzread, hf', Bool.false_eq_true, if_false, hshort, decide_False,
                false_or, hlen0, false_and, not_false_eq_true, true_and, and_false]
            rw [hstep]
            have hdl : (List.drop 1024 rest).length < fuel := by
              simp only [List.length_drop]; omega
            have := (ih (i + 1) ⟨some (List.drop 1024 rest), false⟩
              (acc ++ List.take 1024 rest) rfl).2 (List.drop 1024 rest) rfl hdl
            simpa [List.append_assoc, List.take_append_drop] using this

theorem gz_fuel_pos (gz : gzFile) : 0 < gz_fuel gz := by
  unfold gz_fuel
  cases gz.stream <;> simp

/-- Without faults `fileEqualCRC` compares the checksum of the source with the checksum
of the (decompressed) content of the archived file. -/
theorem fileEqualCRC_none (E : Env) (w : World) (path1 path2 : CString) (c : Bool)
    (f1 f2 : File) (h1 : w.db path1 = some f1) (h2 : w.backup path2 = some f2) :
    fileEqualCRC E Faults.none w path1 path2 c =
      .ok (decide (archived_crc E f2 c = some (pg_crc32 (E.crc32 f1.content)))) := by
  cases c with
  | false =>
      simp [fileEqualCRC, pgFileGetCRC, h1, h2, archived_crc, Except.map, eq_comm]
  | true =>
      cases hd : E.decompress f2.content with
      | none =>
          have hl := (fileEqualCRC_loop_spec Faults.none (gz_fuel ⟨none, false⟩) 0
            ⟨none, false⟩ [] rfl).1 rfl (gz_fuel_pos _)
          simp [fileEqualCRC, fio_gzopen_r, Faults.none, h2, hd, archived_crc]
          simp only [Faults.none] at hl
          rw [hl]
      | some d =>
          have hl := ((fileEqualCRC_loop_spec Faults.none (gz_fuel ⟨some d, false⟩) 0
            ⟨some d, false⟩ [] rfl).2 d rfl (by simp [gz_fuel])).2 (fun _ => rfl)
          simp [fileEqualCRC, fio_gzopen_r, Faults.none, h2, hd, archived_crc]
          simp only [Faults.none, List.nil_append] at hl
          rw [hl]
          simp [pgFileGetCRC, h1, eq_comm]

/-- Whatever calls fail, `fileEqualCRC` returns `true` only when both files exist and the
checksum of the (decompressed) content of the archived file is that of the source. -/
theorem fileEqualCRC_true (E : Env) (io : Faults) (w : World) (path1 path2 : CString)
    (c : Bool) (h : fileEqualCRC E io w path1 path2 c = .ok true) :
    ∃ f1 f2, w.db path1 = some f1 ∧ w.backup path2 = some f2 ∧
      archived_crc E f2 c = some (pg_crc32 (E.crc32 f1.content)) := by
  cases c with
  | false =>
      cases h1 : w.db path1 with
      | none => simp [fileEqualCRC, pgFileGetCRC, h1, Except.map] at h; split at h <;> simp at h
      | some f1 =>
          cases h2 : w.backup path2 with
          | none => simp [fileEqualCRC, pgFileGetCRC, h1, h2, Except.map] at h
          | some f2 =>
              refine ⟨f1, f2, rfl, rfl, ?_⟩
              simp [fileEqualCRC, pgFileGetCRC, h1, h2, Except.map] at h
              simp [archived_crc, h]
  | true =>
      by_cases hgo : io.gzopen_r = true
      · simp [fileEqualCRC, fio_gzopen_r, hgo] at h
      · cases h2 : w.backup path2 with
        | none => simp [fileEqualCRC, fio_gzopen_r, hgo, h2] at h
        | some f2 =>
            cases hd : E.decompress f2.content with
            | none =>
                have hl := (fileEqualCRC_loop_spec io (gz_fuel ⟨none, false⟩) 0
                  ⟨none, false⟩ [] rfl).1 rfl (gz_fuel_pos _)
                simp [fileEqualCRC, fio_gzopen_r, hgo, h2, hd, hl] at h
            | some d =>
                have hl := ((fileEqualCRC_loop_spec io (gz_fuel ⟨some d, false⟩) 0
                  ⟨some d, false⟩ [] rfl).2 d rfl (by simp [gz_fuel])).1
                rcases hl with hl | hl
                · by_cases hgc : io.gzclose_r = true
                  · simp [fileEqualCRC, fio_gzopen_r, hgo, h2, hd, hl, hgc] at h
                  · cases h1 : w.db path1 with
                    | none =>
                        simp [fileEqualCRC, fio_gzopen_r, hgo, h2, hd, hl, hgc, pgFileGetCRC,
                          h1] at h
                    | some f1 =>
                        refine ⟨f1, f2, rfl, rfl, ?_⟩
                        simp [fileEqualCRC, fio_gzopen_r, hgo, h2, hd, hl, hgc, pgFileGetCRC,
                          h1] at h
                        simp [archived_crc, hd, h]
                · simp [fileEqualCRC, fio_gzopen_r, hgo, h2, hd, hl] at h

/-! ## Lemmas: the paths through `push_wal_file` -/

theorem push_wal_file_no_source (E : Env) (io : Faults) (sizes : Nat → Option Nat)
    (from_path to_path : CString) (c ow : Bool) (lvl : Int) (w : World)
    (h : fio_fopen io.fopen w from_path .FIO_DB_HOST = none) :
    push_wal_file E io sizes from_path to_path c ow lvl w = (w, .error .cannotOpenSource) := by
  simp [push_wal_file, h]

/-- With overwrite disabled and the destination present, `push_wal_file` ends at the
check of lines 170-178 and leaves the files as they are. -/
theorem push_wal_file_dest_exists (E : Env) (io : Faults) (sizes : Nat → Option Nat)
    (from_path to_path : CString) (c : Bool) (lvl : Int) (w : World) (inp : Bytes)
    (h : fio_fopen io.fopen w from_path .FIO_DB_HOST = some inp)
    (hex : fileExists w (push_dest E to_path c) .FIO_BACKUP_HOST = true) :
    push_wal_file E io sizes from_path to_path c false lvl w =
      (w, match fileEqualCRC E io w from_path (push_dest E to_path c) c with
          | .error e => .error e
          | .ok true => .ok ()
          | .ok false => .error .alreadyExists) := by
  simp only [push_wal_file, h, hex, if_true]
  cases fileEqualCRC E io w from_path (push_dest E to_path c) c with
  | error e => rfl
  | ok b => cases b <;> rfl

/-- With the destination present and a matching checksum, `push_wal_file` returns at
line 174, whatever the overwrite flag. -/
theorem push_wal_file_skip (E : Env) (io : Faults) (sizes : Nat → Option Nat)
    (from_path to_path : CString) (c ow : Bool) (lvl : Int) (w : World) (inp : Bytes)
    (h : fio_fopen io.fopen w from_path .FIO_DB_HOST = some inp)
    (hex : fileExists w (push_dest E to_path c) .FIO_BACKUP_HOST = true)
    (heq : fileEqualCRC E io w from_path (push_dest E to_path c) c = .ok true) :
    push_wal_file E io sizes from_path to_path c ow lvl w = (w, .ok ()) := by
  simp [push_wal_file, h, hex, heq]

/-- When the check of lines 170-178 lets the call go on, `push_wal_file` is the rest of
its body: temporary file, copy loop, close and rename. -/
theorem push_wal_file_copy (E : Env) (io : Faults) (sizes : Nat → Option Nat)
    (from_path to_path : CString) (c ow : Bool) (lvl : Int) (w : World) (inp : Bytes)
    (h : fio_fopen io.fopen w from_path .FIO_DB_HOST = some inp)
    (hgo : fileExists w (push_dest E to_path c) .FIO_BACKUP_HOST = false ∨
      (fileEqualCRC E io w from_path (push_dest E to_path c) c = .ok false ∧ ow = true)) :
    push_wal_file E io sizes from_path to_path c ow lvl w =
      match push_open_temp E io sizes (push_temp E to_path c) w with
      | (w1, .error e) => (w1, .error e)
      | (w1, .ok ()) =>
          match push_copy E io c (push_temp E to_path c) (inp.length + 1) 0 inp [] w1 with
          | (w2, .error e) => (w2, .error e)
          | (w2, .ok gz_out) =>
              push_finish E io from_path (push_dest E to_path c) (push_temp E to_path c) c
                lvl gz_out w2 := by
  rcases hgo with hgo | ⟨hgo, how⟩
  · simp only [push_wal_file, h, hgo, Bool.false_eq_true, if_false]
  · subst how
    by_cases hex : fileExists w (push_dest E to_path c) .FIO_BACKUP_HOST = true
    · simp only [push_wal_file, h, hex, if_true, hgo, Bool.not_true, Bool.false_eq_true,
        if_false]
    · simp only [push_wal_file, h, hex, Bool.false_eq_true, if_false]

theorem fio_fopen_some (fault : Bool) (w : World) (path : CString) (inp : Bytes)
    (h : fio_fopen fault w path .FIO_DB_HOST = some inp) :
    fault = false ∧ ∃ src, w.db path = some src ∧ src.content = inp := by
  unfold fio_fopen at h
  cases fault with
  | true => simp at h
  | false =>
      refine ⟨rfl, ?_⟩
      cases hs : w.db path with
      | none => simp [hs] at h
      | some src => exact ⟨src, rfl, by simpa [hs] using h⟩

/-- What a successful `push_wal_file` leaves: the database host as it was, and either
the files untouched, with an archived file whose checksum is that of the source (line
174), or the source content (compressed when asked) under the destination name with the
mode of the source, no temporary file, and every other path as before. -/
theorem push_wal_file_ok (E : Env) (io : Faults) (sizes : Nat → Option Nat)
    (from_path to_path : CString) (c ow : Bool) (lvl : Int) (w : World)
    (h : (push_wal_file E io sizes from_path to_path c ow lvl w).2 = .ok ()) :
    ∃ src, w.db from_path = some src ∧
      (push_wal_file E io sizes from_path to_path c ow lvl w).1.db = w.db ∧
      (((push_wal_file E io sizes from_path to_path c ow lvl w).1 = w ∧
          ∃ f2, w.backup (push_dest E to_path c) = some f2 ∧
            archived_crc E f2 c = some (pg_crc32 (E.crc32 src.content))) ∨
        ((push_wal_file E io sizes from_path to_path c ow lvl w).1.backup
              (push_dest E to_path c) =
            some ⟨if c then E.compress lvl src.content else src.content, src.mode⟩ ∧
          (∀ q, q ≠ push_temp E to_path c → q ≠ push_dest E to_path c →
            (push_wal_file E io sizes from_path to_path c ow lvl w).1.backup q =
              w.backup q) ∧
          (push_temp E to_path c ≠ push_dest E to_path c →
            (push_wal_file E io sizes from_path to_path c ow lvl w).1.backup
              (push_temp E to_path c) = none))) := by
  cases hopen : fio_fopen io.fopen w from_path .FIO_DB_HOST with
  | none =>
      rw [push_wal_file_no_source E io sizes from_path to_path c ow lvl w hopen] at h
      cases h
  | some inp =>
      obtain ⟨_, src, hsrc, hinp⟩ := fio_fopen_some _ _ _ _ hopen
      refine ⟨src, hsrc, ?_⟩
      have hcopy : (fileExists w (push_dest E to_path c) .FIO_BACKUP_HOST = false ∨
          (fileEqualCRC E io w from_path (push_dest E to_path c) c = .ok false ∧ ow = true)) →
          (push_wal_file E io sizes from_path to_path c ow lvl w).1.db = w.db ∧
          (push_wal_file E io sizes from_path to_path c ow lvl w).1.backup
              (push_dest E to_path c) =
            some ⟨if c then E.compress lvl src.content else src.content, src.mode⟩ ∧
          (∀ q, q ≠ push_temp E to_path c → q ≠ push_dest E to_path c →
            (push_wal_file E io sizes from_path to_path c ow lvl w).1.backup q =
              w.backup q) ∧
          (push_temp E to_path c ≠ push_dest E to_path c →
            (push_wal_file E io sizes from_path to_path c ow lvl w).1.backup
              (push_temp E to_path c) = none) := by
        intro hgo
        have hrw := push_wal_file_copy E io sizes from_path to_path c ow lvl w inp hopen hgo
        rw [hrw] at h ⊢
        obtain ⟨o1, o2, o3, _, _⟩ := push_open_temp_spec E io sizes (push_temp E to_path c) w
        revert h o1 o2 o3
        cases push_open_temp E io sizes (push_temp E to_path c) w with
        | mk w1 r1 =>
            cases r1 with
            | error e => intro h; cases h
            | ok u =>
                cases u
                intro h o1 o2 o3
                simp only at h o1 o2 o3 ⊢
                obtain ⟨c1, c2, _, _, c5⟩ :=
                  push_copy_spec E io c (push_temp E to_path c) (inp.length + 1) 0 inp [] w1
                revert h c1 c2 c5
                cases push_copy E io c (push_temp E to_path c) (inp.length + 1) 0 inp [] w1 with
                | mk w2 r2 =>
                    cases r2 with
                    | error e => intro h; cases h
                    | ok g =>
                        intro h c1 c2 c5
                        simp only at h c1 c2 c5 ⊢
                        obtain ⟨hg, hw2t⟩ := c5 g rfl
                        obtain ⟨f1, _, f3⟩ := push_finish_spec E io from_path
                          (push_dest E to_path c) (push_temp E to_path c) c lvl g w2
                        obtain ⟨f, src', hf, hsrc', hdest, hframe, htemp⟩ := f3 h
                        rw [o3 trivial] at hw2t
                        rw [hw2t] at hf
                        simp only [Option.map_some', List.nil_append,
                          Option.some.injEq] at hf
                        rw [c1, o1, hsrc] at hsrc'
                        cases hsrc'
                        refine ⟨by rw [f1, c1, o1], ?_, ?_, htemp⟩
                        · rw [hdest, ← hf, hg]
                          cases c <;> simp [hinp]
                        · intro q hq hqd
                          rw [hframe q hq hqd, c2 q hq, o2 q hq]
      by_cases hex : fileExists w (push_dest E to_path c) .FIO_BACKUP_HOST = true
      · cases heq : fileEqualCRC E io w from_path (push_dest E to_path c) c with
        | error e =>
            simp [push_wal_file, hopen, hex, heq] at h
        | ok b =>
            cases b with
            | true =>
                obtain ⟨f1, f2, hf1, hf2, hcrc⟩ := fileEqualCRC_true E io w _ _ c heq
                rw [hsrc] at hf1
                cases hf1
                rw [push_wal_file_skip E io sizes from_path to_path c ow lvl w inp hopen hex heq]
                exact ⟨rfl, Or.inl ⟨rfl, f2, hf2, hcrc⟩⟩
            | false =>
                cases ow with
                | false => simp [push_wal_file, hopen, hex, heq] at h
                | true =>
                    obtain ⟨a, b⟩ := hcopy (Or.inr ⟨heq, rfl⟩)
                    exact ⟨a, Or.inr b⟩
      · have hex' : fileExists w (push_dest E to_path c) .FIO_BACKUP_HOST = false := by
          simpa using hex
        obtain ⟨a, b⟩ := hcopy (Or.inl hex')
        exact ⟨a, Or.inr b⟩

/-! ## Theorems: `push_wal_file` -/

theorem example_codec_roundtrip (lvl : Int) (x : Bytes) :
    example_decompress (example_compress lvl x) = some x := rfl

/-- C1: push is idempotent.  If a call of `push_wal_file` with overwrite disabled
returns normally, then on the files it left a second call with the same source and
arguments returns normally when no system call fails, and, whatever calls fail, leaves
both file systems exactly as the first call left them (no temporary file appears, the
destination is not touched).  The codec is assumed to satisfy
`decompress (compress x) = x`. -/
theorem push_wal_file_idempotent (E : Env)
    (hcodec : ∀ lvl x, E.decompress (E.compress lvl x) = some x)
    (io io2 : Faults) (sizes sizes2 : Nat → Option Nat) (from_path to_path : CString)
    (is_compress : Bool) (compress_level : Int) (w : World)
    (h : (push_wal_file E io sizes from_path to_path is_compress false compress_level w).2 =
      .ok ()) :
    push_wal_file E Faults.none sizes2 from_path to_path is_compress false compress_level
        (push_wal_file E io sizes from_path to_path is_compress false compress_level w).1 =
      ((push_wal_file E io sizes from_path to_path is_compress false compress_level w).1,
        .ok ()) ∧
    (push_wal_file E io2 sizes2 from_path to_path is_compress false compress_level
        (push_wal_file E io sizes from_path to_path is_compress false compress_level w).1).1 =
      (push_wal_file E io sizes from_path to_path is_compress false compress_level w).1 := by
  obtain ⟨src, hsrc, hdb, hcases⟩ :=
    push_wal_file_ok E io sizes from_path to_path is_compress false compress_level w h
  generalize (push_wal_file E io sizes from_path to_path is_compress false compress_level
    w).1 = w1 at hdb hcases ⊢
  have hsrc1 : w1.db from_path = some src := by rw [hdb]; exact hsrc
  have hdst : ∃ f2, w1.backup (push_dest E to_path is_compress) = some f2 ∧
      archived_crc E f2 is_compress = some (pg_crc32 (E.crc32 src.content)) := by
    rcases hcases with ⟨hw, f2, hf2, hcrc⟩ | ⟨hdest, _, _⟩
    · exact ⟨f2, by rw [hw]; exact hf2, hcrc⟩
    · refine ⟨_, hdest, ?_⟩
      cases is_compress
      · simp [archived_crc]
      · simp [archived_crc, hcodec]
  obtain ⟨f2, hf2, hcrc⟩ := hdst
  have hex : fileExists w1 (push_dest E to_path is_compress) .FIO_BACKUP_HOST = true := by
    simp [fileExists, hf2]
  constructor
  · have hopen : fio_fopen Faults.none.fopen w1 from_path .FIO_DB_HOST = some src.content := by
      simp [fio_fopen, Faults.none, hsrc1]
    have heq := fileEqualCRC_none E w1 from_path (push_dest E to_path is_compress)
      is_compress src f2 hsrc1 hf2
    rw [hcrc] at heq
    simp only [decide_True] at heq
    exact push_wal_file_skip E Faults.none sizes2 from_path to_path is_compress false
      compress_level w1 src.content hopen hex heq
  · cases hopen : fio_fopen io2.fopen w1 from_path .FIO_DB_HOST with
    | none => rw [push_wal_file_no_source E io2 sizes2 _ _ _ _ _ w1 hopen]
    | some inp => rw [push_wal_file_dest_exists E io2 sizes2 _ _ _ _ w1 inp hopen hex]

/-- Witness of C1: the five-byte segment is pushed, compressed, into the empty archive;
the second push returns normally and changes no file. -/
theorem push_wal_file_idempotent_witness :
    (push_wal_file small_block_env Faults.none (fun _ => none) example_source
        example_archive true false 1 example_world).2 = .ok () ∧
      push_wal_file small_block_env Faults.none (fun _ => none) example_source
          example_archive true false 1
          (push_wal_file small_block_env Faults.none (fun _ => none) example_source
            example_archive true false 1 example_world).1 =
        ((push_wal_file small_block_env Faults.none (fun _ => none) example_source
            example_archive true false 1 example_world).1, .ok ()) :=
  ⟨by decide,
    (push_wal_file_idempotent small_block_env example_codec_roundtrip Faults.none Faults.none
      (fun _ => none) (fun _ => none) example_source example_archive true 1 example_world
      (by decide)).1⟩

set_option maxRecDepth 100000 in
/-- C2 as stated fails: the archive holds the bytes 1, 3, 131, 107, 242 under the
destination name, the source holds five zero bytes, and both have the CRC-32C
`0x45727635`.  With overwrite disabled and no failing call `push_wal_file` returns
normally instead of raising "already exists"; the archived bytes stay, different from
the source. -/
theorem push_wal_file_crc_collision :
    crc32c [0, 0, 0, 0, 0] = 0x45727635 ∧ crc32c [1, 3, 131, 107, 242] = 0x45727635 ∧
      (push_wal_file example_env Faults.none (fun _ => none) example_source example_archive
        false false 0 collision_world).2 = .ok () ∧
      (push_wal_file example_env Faults.none (fun _ => none) example_source example_archive
        false false 0 collision_world).2 ≠ .error .alreadyExists ∧
      (push_wal_file example_env Faults.none (fun _ => none) example_source example_archive
        false false 0 collision_world).1.backup example_archive =
          some ⟨[1, 3, 131, 107, 242], 0o600⟩ := by
  decide

/-- C2, amended: when overwrite is disabled, the (possibly `.gz`) destination exists and
the checksum of its (decompressed) content differs from the checksum of the source
content, or its content is not a valid compressed stream, `push_wal_file` fails with
"already exists" if no system call fails, and with some error otherwise; in both cases
every file, the destination included, stays as it was and no temporary file is
created. -/
theorem push_wal_file_no_overwrite (E : Env) (io : Faults) (sizes : Nat → Option Nat)
    (from_path to_path : CString) (is_compress : Bool) (compress_level : Int) (w : World)
    (src dst : File) (hsrc : w.db from_path = some src)
    (hdst : w.backup (push_dest E to_path is_compress) = some dst)
    (hcrc : archived_crc E dst is_compress ≠ some (pg_crc32 (E.crc32 src.content))) :
    push_wal_file E Faults.none sizes from_path to_path is_compress false compress_level w =
        (w, .error .alreadyExists) ∧
      (push_wal_file E io sizes from_path to_path is_compress false compress_level w).1 = w ∧
      (push_wal_file E io sizes from_path to_path is_compress false compress_level w).2 ≠
        .ok () := by
  have hex : fileExists w (push_dest E to_path is_compress) .FIO_BACKUP_HOST = true := by
    simp [fileExists, hdst]
  refine ⟨?_, ?_, ?_⟩
  · have hopen : fio_fopen Faults.none.fopen w from_path .FIO_DB_HOST = some src.content := by
      simp [fio_fopen, Faults.none, hsrc]
    rw [push_wal_file_dest_exists E Faults.none sizes _ _ _ _ w _ hopen hex,
      fileEqualCRC_none E w from_path _ is_compress src dst hsrc hdst]
    simp [hcrc]
  · cases hopen : fio_fopen io.fopen w from_path .FIO_DB_HOST with
    | none => rw [push_wal_file_no_source E io sizes _ _ _ _ _ w hopen]
    | some inp => rw [push_wal_file_dest_exists E io sizes _ _ _ _ w inp hopen hex]
  · intro hok
    obtain ⟨src', hsrc', _, hcases⟩ :=
      push_wal_file_ok E io sizes from_path to_path is_compress false compress_level w hok
    rw [hsrc] at hsrc'
    cases hsrc'
    cases hopen : fio_fopen io.fopen w from_path .FIO_DB_HOST with
    | none =>
        rw [push_wal_file_no_source E io sizes _ _ _ _ _ w hopen] at hok
        cases hok
    | some inp =>
        rw [push_wal_file_dest_exists E io sizes _ _ _ _ w inp hopen hex] at hok
        cases heq : fileEqualCRC E io w from_path (push_dest E to_path is_compress)
            is_compress with
        | error e => simp [heq] at hok
        | ok b =>
            cases b with
            | false => simp [heq] at hok
            | true =>
                obtain ⟨f1, f2, hf1, hf2, hc⟩ := fileEqualCRC_true E io w _ _ _ heq
                rw [hsrc] at hf1
                rw [hdst] at hf2
                cases hf1
                cases hf2
                exact hcrc hc

set_option maxRecDepth 100000 in
/-- Witness of C2, amended: the archive holds other bytes, with another checksum, under
the `.gz` destination name; the push fails with "already exists" and changes no file. -/
theorem push_wal_file_no_overwrite_witness :
    differing_world.db example_source = some ⟨[1, 2, 3, 4, 5], 0o600⟩ ∧
      differing_world.backup (push_dest example_env example_archive true) =
        some ⟨[31, 139, 9, 9], 0o600⟩ ∧
      push_wal_file example_env Faults.none (fun _ => none) example_source example_archive
        true false 1 differing_world = (differing_world, .error .alreadyExists) :=
  ⟨by decide, by decide,
    (push_wal_file_no_overwrite example_env Faults.none (fun _ => none) example_source
      example_archive true 1 differing_world ⟨[1, 2, 3, 4, 5], 0o600⟩
      ⟨[31, 139, 9, 9], 0o600⟩ (by decide) (by decide) (by decide)).1⟩

/-- C3: atomicity of push on failure.  If the destination name is absent when
`push_wal_file` starts and the call fails with one of the errors raised after its
temporary file was created (source read error, write error at any block, close or flush
error, stat or chmod error of `copy_file_attributes`, rename error), then in the files
left at that error the destination name is still absent and the temporary file has been
unlinked. -/
theorem push_wal_file_atomic_on_failure (E : Env) (io : Faults) (sizes : Nat → Option Nat)
    (from_path to_path : CString) (is_compress overwrite : Bool) (compress_level : Int)
    (w : World) (e : ArchiveError)
    (hdest : w.backup (push_dest E to_path is_compress) = none)
    (herr : (push_wal_file E io sizes from_path to_path is_compress overwrite
      compress_level w).2 = .error e)
    (hafter : e = .cannotReadSource ∨ e = .cannotWriteCompressed ∨ e = .cannotWriteTo ∨
      e = .cannotCloseCompressed ∨ e = .cannotWrite ∨ e = .cannotCloseSource ∨
      e = .cannotStatFile ∨ e = .cannotChmod ∨ e = .cannotRename) :
    (push_wal_file E io sizes from_path to_path is_compress overwrite compress_level
        w).1.backup (push_dest E to_path is_compress) = none ∧
      (push_wal_file E io sizes from_path to_path is_compress overwrite compress_level
        w).1.backup (push_temp E to_path is_compress) = none := by
  have hex : fileExists w (push_dest E to_path is_compress) .FIO_BACKUP_HOST = false := by
    simp [fileExists, hdest]
  -- it is enough to know the temporary file is gone and the other paths are untouched
  have hkey : ∀ w' : World, w'.backup (push_temp E to_path is_compress) = none →
      (∀ q, q ≠ push_temp E to_path is_compress → w'.backup q = w.backup q) →
      w'.backup (push_dest E to_path is_compress) = none ∧
        w'.backup (push_temp E to_path is_compress) = none := by
    intro w' ht hq
    refine ⟨?_, ht⟩
    by_cases hd : push_dest E to_path is_compress = push_temp E to_path is_compress
    · rw [hd]; exact ht
    · rw [hq _ hd]; exact hdest
  cases hopen : fio_fopen io.fopen w from_path .FIO_DB_HOST with
  | none =>
      rw [push_wal_file_no_source E io sizes _ _ _ _ _ w hopen] at herr
      cases herr
      simp at hafter
  | some inp =>
      have hrw := push_wal_file_copy E io sizes from_path to_path is_compress overwrite
        compress_level w inp hopen (Or.inl hex)
      rw [hrw] at herr ⊢
      obtain ⟨_, o2, _, o4, _⟩ :=
        push_open_temp_spec E io sizes (push_temp E to_path is_compress) w
      revert herr o2 o4
      cases push_open_temp E io sizes (push_temp E to_path is_compress) w with
      | mk w1 r1 =>
          cases r1 with
          | error e1 =>
              intro herr _ o4
              cases herr
              rcases o4 e rfl with h | h | h <;> subst h <;> simp at hafter
          | ok u =>
              cases u
              intro herr o2 _
              simp only at herr o2 ⊢
              obtain ⟨_, c2, c3, _, _⟩ :=
                push_copy_spec E io is_compress (push_temp E to_path is_compress)
                  (inp.length + 1) 0 inp [] w1
              revert herr c2 c3
              cases push_copy E io is_compress (push_temp E to_path is_compress)
                  (inp.length + 1) 0 inp [] w1 with
              | mk w2 r2 =>
                  cases r2 with
                  | error e2 =>
                      intro herr c2 c3
                      cases herr
                      refine hkey w2 (c3 e rfl ?_) (fun q hq => by rw [c2 q hq, o2 q hq])
                      intro hfuel
                      subst hfuel
                      simp at hafter
                  | ok g =>
                      intro herr c2 _
                      simp only at herr c2 ⊢
                      obtain ⟨_, f2, _⟩ := push_finish_spec E io from_path
                        (push_dest E to_path is_compress) (push_temp E to_path is_compress)
                        is_compress compress_level g w2
                      obtain ⟨ht, hq, _⟩ := f2 e herr
                      exact hkey _ ht (fun q hq' => by rw [hq q hq', c2 q hq', o2 q hq'])

/-- Witness of C3: with 2-byte blocks the write of the second block of the five-byte
segment fails; the call raises "Cannot write to WAL file" and neither the destination
nor the temporary file exists afterwards. -/
theorem push_wal_file_atomic_on_failure_witness :
    (push_wal_file small_block_env second_write_fails (fun _ => none) example_source
        example_archive false false 0 example_world).2 = .error .cannotWriteTo ∧
      (push_wal_file small_block_env second_write_fails (fun _ => none) example_source
        example_archive false false 0 example_world).1.backup
          (push_dest small_block_env example_archive false) = none ∧
      (push_wal_file small_block_env second_write_fails (fun _ => none) example_source
        example_archive false false 0 example_world).1.backup
          (push_temp small_block_env example_archive false) = none :=
  ⟨by decide,
    push_wal_file_atomic_on_failure small_block_env second_write_fails (fun _ => none)
      example_source example_archive false false 0 example_world .cannotWriteTo
      (by decide) (by decide) (by decide)⟩

/-! ## Lemmas: `get_wal_file` -/

theorem fio_write_db_same (w : World) (temp : CString) (buf : Bytes) :
    (fio_write w temp buf .FIO_DB_HOST).db temp =
      (w.db temp).map (fun f => ⟨f.content ++ buf, f.mode⟩) := by
  simp [fio_write]

theorem fio_write_db_other (w : World) (temp q : CString) (buf : Bytes) (h : q ≠ temp) :
    (fio_write w temp buf .FIO_DB_HOST).db q = w.db q := by
  simp [fio_write, FileSystem.update_of_ne _ _ _ _ h]

theorem fio_write_db_backup (w : World) (temp : CString) (buf : Bytes) :
    (fio_write w temp buf .FIO_DB_HOST).backup = w.backup := by
  simp [fio_write]

/-- Without faults the copy loop of `get_wal_file` on a plain source ends normally and
appends the source to the temporary file. -/
theorem get_copy_plain (E : Env) (temp : CString) :
    ∀ (fuel i : Nat) (inp : Bytes) (gz : gzFile) (w : World), inp.length < fuel →
      (get_copy E Faults.none false temp fuel i inp gz w).2 = .ok () ∧
      (get_copy E Faults.none false temp fuel i inp gz w).1.backup = w.backup ∧
      (∀ q, q ≠ temp → (get_copy E Faults.none false temp fuel i inp gz w).1.db q = w.db q) ∧
      (get_copy E Faults.none false temp fuel i inp gz w).1.db temp =
        (w.db temp).map (fun f => ⟨f.content ++ inp, f.mode⟩) := by
  intro fuel
  induction fuel with
  | zero => intro i inp gz w h; exact absurd h (Nat.not_lt_zero _)
  | succ fuel ih =>
      intro i inp gz w hlen
      by_cases hnil : inp = []
      · subst hnil
        cases hw : w.db temp <;> simp [get_copy, Faults.none, hw]
      · have hpos : (List.take E.XLOG_BLCKSZ inp).length > 0 :=
          (take_length_pos E inp).mpr hnil
        have hdrop := drop_length_lt E inp hnil
        have hstep : get_copy E Faults.none false temp (fuel + 1) i inp gz w =
            get_copy E Faults.none false temp fuel (i + 1) (List.drop E.XLOG_BLCKSZ inp) gz
              (fio_write w temp (List.take E.XLOG_BLCKSZ inp) .FIO_DB_HOST) := by
          simp only [get_copy, Faults.none, Bool.false_eq_true, if_false, hpos, if_true]
        rw [hstep]
        obtain ⟨h1, h2, h3, h4⟩ := ih (i + 1) (List.drop E.XLOG_BLCKSZ inp) gz
          (fio_write w temp (List.take E.XLOG_BLCKSZ inp) .FIO_DB_HOST) (by omega)
        refine ⟨h1, by rw [h2, fio_write_db_backup], ?_, ?_⟩
        · intro q hq
          rw [h3 q hq, fio_write_db_other _ _ _ _ hq]
        · rw [h4, fio_write_db_same]
          cases w.db temp with
          | none => rfl
          | some f => simp [List.append_assoc, List.take_append_drop]

/-- Without faults the copy loop of `get_wal_file` on a compressed source ends normally
and appends the decompressed stream to the temporary file. -/
theorem get_copy_gz (E : Env) (temp : CString) :
    ∀ (fuel i : Nat) (inp rest : Bytes) (w : World), rest.length < fuel →
      (get_copy E Faults.none true temp fuel i inp ⟨some rest, false⟩ w).2 = .ok () ∧
      (get_copy E Faults.none true temp fuel i inp ⟨some rest, false⟩ w).1.backup =
        w.backup ∧
      (∀ q, q ≠ temp →
        (get_copy E Faults.none true temp fuel i inp ⟨some rest, false⟩ w).1.db q = w.db q) ∧
      (get_copy E Faults.none true temp fuel i inp ⟨some rest, false⟩ w).1.db temp =
        (w.db temp).map (fun f => ⟨f.content ++ rest, f.mode⟩) := by
  intro fuel
  induction fuel with
  | zero => intro i inp rest w h; exact absurd h (Nat.not_lt_zero _)
  | succ fuel ih =>
      intro i inp rest w hlen
      have hB := E.XLOG_BLCKSZ_pos
      by_cases hnil : rest = []
      · subst hnil
        cases hw : w.db temp <;> simp [get_copy, fio_gzread, Faults.none, hw, hB]
      · have hpos : (List.take E.XLOG_BLCKSZ rest).length > 0 :=
          (take_length_pos E rest).mpr hnil
        have hne : ¬ (List.take E.XLOG_BLCKSZ rest).length = 0 := by omega
        by_cases hshort : rest.length < E.XLOG_BLCKSZ
        · have htake : List.take E.XLOG_BLCKSZ rest = rest :=
            List.take_of_length_le (by omega)
          have hstep : get_copy E Faults.none true temp (fuel + 1) i inp ⟨some rest, false⟩ w =
              (fio_write w temp rest .FIO_DB_HOST, .ok ()) := by
            rw [htake] at hpos hne
            simp [get_copy, fio_gzread, Faults.none, hshort, htake, hne, hpos]
          rw [hstep]
          exact ⟨rfl, fio_write_db_backup _ _ _, fun q hq => fio_write_db_other _ _ _ _ hq,
            fio_write_db_same _ _ _⟩
        · have hstep : get_copy E Faults.none true temp (fuel + 1) i inp ⟨some rest, false⟩ w =
              get_copy E Faults.none true temp fuel (i + 1) inp
                ⟨some (List.drop E.XLOG_BLCKSZ rest), false⟩
                (fio_write w temp (List.take E.XLOG_BLCKSZ rest) .FIO_DB_HOST) := by
            have hB0 : E.XLOG_BLCKSZ ≠ 0 := Nat.pos_iff_ne_zero.mp hB
            have hl0 : 0 < rest.length := List.length_pos.mpr hnil
            simp [get_copy, fio_gzread, Faults.none, hshort, hne, hpos, hB0, hB, hl0, hnil]
          rw [hstep]
          have hdrop := drop_length_lt E rest hnil
          obtain ⟨h1, h2, h3, h4⟩ := ih (i + 1) inp (List.drop E.XLOG_BLCKSZ rest)
            (fio_write w temp (List.take E.XLOG_BLCKSZ rest) .FIO_DB_HOST) (by omega)
          refine ⟨h1, by rw [h2, fio_write_db_backup], ?_, ?_⟩
          · intro q hq
            rw [h3 q hq, fio_write_db_other _ _ _ _ hq]
          · rw [h4, fio_write_db_same]
            cases w.db temp with
            | none => rfl
            | some f => simp [List.append_assoc, List.take_append_drop]

/-- Without faults, lines 482-522 of `get_wal_file` put the temporary file under the
target name, with the mode of the source file. -/
theorem get_finish_none (from_path_p to_path temp : CString) (is_decompress : Bool)
    (w : World) (f t : File) (hsrc : w.backup from_path_p = some f)
    (htemp : w.db temp = some t) :
    get_finish Faults.none from_path_p to_path temp is_decompress w =
      (w.put .FIO_DB_HOST (((w.db.update temp (some ⟨t.content, f.mode⟩)).update temp
        none).update to_path (some ⟨t.content, f.mode⟩)), .ok ()) := by
  simp [get_finish, Faults.none, copy_file_attributes, fio_stat, fio_chmod, fio_rename,
    hsrc, htemp]

/-- With the plain archive path present and no failing call, `get_wal_file` copies that
file verbatim: the target holds its bytes and its mode, the archive is untouched and no
temporary file is left. -/
theorem get_wal_file_plain (E : Env) (from_path to_path : CString) (w : World) (f : File)
    (hf : w.backup from_path = some f) (htemp : w.db (get_temp E to_path) = none) :
    (get_wal_file E Faults.none from_path to_path w).2 = .ok () ∧
      (get_wal_file E Faults.none from_path to_path w).1.db to_path = some f ∧
      (get_wal_file E Faults.none from_path to_path w).1.backup = w.backup ∧
      (get_temp E to_path ≠ to_path →
        (get_wal_file E Faults.none from_path to_path w).1.db (get_temp E to_path) = none) := by
  have hprobe : get_probe E w from_path = some false := by
    simp [get_probe, fio_access, hf]
  have hopen : get_open E Faults.none from_path to_path false w =
      .ok (f.content, ⟨none, false⟩, w.put .FIO_DB_HOST (w.db.update (get_temp E to_path)
        (some ⟨[], E.FILE_PERMISSIONS⟩))) := by
    simp [get_open, fio_fopen, fio_open_excl, Faults.none, hf, htemp]
  obtain ⟨k1, k2, k3, k4⟩ := get_copy_plain E (get_temp E to_path)
    (f.content.length + gz_fuel ⟨none, false⟩) 0 f.content ⟨none, false⟩
    (w.put .FIO_DB_HOST (w.db.update (get_temp E to_path) (some ⟨[], E.FILE_PERMISSIONS⟩)))
    (by simp [gz_fuel])
  simp only [get_wal_file, hprobe, hopen]
  revert k1 k2 k3 k4
  cases get_copy E Faults.none false (get_temp E to_path)
      (f.content.length + gz_fuel ⟨none, false⟩) 0 f.content ⟨none, false⟩
      (w.put .FIO_DB_HOST (w.db.update (get_temp E to_path)
        (some ⟨[], E.FILE_PERMISSIONS⟩))) with
  | mk w2 r2 =>
      intro k1 k2 k3 k4
      simp only at k1 k2 k3 k4
      subst k1
      simp only [World.put_db_db, FileSystem.update_same, Option.map_some', World.put_db_backup,
        List.nil_append] at k2 k4
      simp only [Bool.false_eq_true, if_false]
      rw [get_finish_none from_path to_path (get_temp E to_path) false w2 f _
        (by rw [k2]; exact hf) k4]
      refine ⟨rfl, by simp, by simp [k2], ?_⟩
      intro hne
      simp [FileSystem.update_of_ne _ _ _ _ hne]

/-- With the plain archive path absent, the `.gz` path present and a valid stream, and
no failing call, `get_wal_file` decompresses the `.gz` file: the target holds the
decompressed bytes and the mode of the `.gz` file, the archive is untouched and no
temporary file is left. -/
theorem get_wal_file_gz (E : Env) (from_path to_path : CString) (w : World) (f : File)
    (d : Bytes) (hplain : w.backup from_path = none)
    (hf : w.backup (get_gz_source E from_path) = some f)
    (hd : E.decompress f.content = some d) (htemp : w.db (get_temp E to_path) = none) :
    (get_wal_file E Faults.none from_path to_path w).2 = .ok () ∧
      (get_wal_file E Faults.none from_path to_path w).1.db to_path = some ⟨d, f.mode⟩ ∧
      (get_wal_file E Faults.none from_path to_path w).1.backup = w.backup ∧
      (get_temp E to_path ≠ to_path →
        (get_wal_file E Faults.none from_path to_path w).1.db (get_temp E to_path) = none) := by
  have hprobe : get_probe E w from_path = some true := by
    simp [get_probe, fio_access, hplain, hf]
  have hopen : get_open E Faults.none from_path to_path true w =
      .ok ([], ⟨some d, false⟩, w.put .FIO_DB_HOST (w.db.update (get_temp E to_path)
        (some ⟨[], E.FILE_PERMISSIONS⟩))) := by
    simp [get_open, fio_gzopen_r, fio_open_excl, Faults.none, hf, hd, htemp]
  obtain ⟨k1, k2, k3, k4⟩ := get_copy_gz E (get_temp E to_path)
    (([] : Bytes).length + gz_fuel ⟨some d, false⟩) 0 [] d
    (w.put .FIO_DB_HOST (w.db.update (get_temp E to_path) (some ⟨[], E.FILE_PERMISSIONS⟩)))
    (by simp [gz_fuel])
  simp only [get_wal_file, hprobe, hopen]
  revert k1 k2 k3 k4
  cases get_copy E Faults.none true (get_temp E to_path)
      (([] : Bytes).length + gz_fuel ⟨some d, false⟩) 0 [] ⟨some d, false⟩
      (w.put .FIO_DB_HOST (w.db.update (get_temp E to_path)
        (some ⟨[], E.FILE_PERMISSIONS⟩))) with
  | mk w2 r2 =>
      intro k1 k2 k3 k4
      simp only at k1 k2 k3 k4
      subst k1
      simp only [World.put_db_db, FileSystem.update_same, Option.map_some', World.put_db_backup,
        List.nil_append] at k2 k4
      simp only [if_true]
      rw [get_finish_none (get_gz_source E from_path) to_path (get_temp E to_path) true w2 f _
        (by rw [k2]; exact hf) k4]
      refine ⟨rfl, by simp, by simp [k2], ?_⟩
      intro hne
      simp [FileSystem.update_of_ne _ _ _ _ hne]

theorem get_finish_error (io : Faults) (from_path_p to_path temp : CString) (c : Bool)
    (w : World) (e : ArchiveError)
    (h : (get_finish io from_path_p to_path temp c w).2 = .error e) :
    e = .cannotWrite ∨ e = .cannotCloseCompressed ∨ e = .cannotCloseSource ∨
      e = .cannotStatFile ∨ e = .cannotChmod ∨ e = .cannotRename := by
  unfold get_finish at h
  split at h
  · cases h; simp
  · split at h
    · cases h; simp
    · split at h
      · cases h; simp
      · rcases copy_file_attributes_cases io w from_path_p .FIO_BACKUP_HOST temp
            .FIO_DB_HOST with ⟨e', he', hl⟩ | ⟨src, f, _, _, _, _, hcfa⟩
        · rw [he'] at h
          cases h
          rcases hl with hl | hl <;> simp [hl]
        · rw [hcfa] at h
          simp only at h
          split at h
          · cases h; simp
          · cases h

theorem get_open_error (E : Env) (io : Faults) (from_path to_path : CString) (c : Bool)
    (w : World) (e : ArchiveError) (h : get_open E io from_path to_path c w = .error e) :
    e = .cannotOpenSource ∨ e = .cannotOpenCompressed ∨ e = .cannotOpenTemp := by
  unfold get_open at h
  cases c with
  | false =>
      simp only [Bool.not_false, if_true] at h
      split at h
      · rename_i heq
        split at heq
        · cases heq; cases h; simp
        · cases heq
      · split at h
        · cases h; simp
        · cases h
  | true =>
      simp only [Bool.not_true, Bool.false_eq_true, if_false] at h
      split at h
      · rename_i heq
        split at heq
        · cases heq; cases h; simp
        · cases heq
      · split at h
        · cases h; simp
        · cases h

set_option maxRecDepth 100000 in
/-- C4 as stated fails: the archive holds the byte 9 under the plain archive path; the
five-byte segment is pushed with compression on, which stores it under the `.gz` name;
the following `get_wal_file` locates the plain file and restores the byte 9, not the
segment.  It fails on a checksum collision too: the archive holds the compressed bytes
1, 3, 131, 107, 242 under the `.gz` name, the source holds five zero bytes with the
same CRC-32C; the push returns at the checksum comparison and `get_wal_file` restores
the archived bytes. -/
theorem push_then_get_restores_stale_plain :
    stale_plain_world.db example_source = some ⟨[1, 2, 3, 4, 5], 0o600⟩ ∧
      (push_wal_file example_env Faults.none (fun _ => none) example_source example_archive
        true false 1 stale_plain_world).2 = .ok () ∧
      (get_wal_file example_env Faults.none example_archive example_restore
        (push_wal_file example_env Faults.none (fun _ => none) example_source
          example_archive true false 1 stale_plain_world).1).2 = .ok () ∧
      (get_wal_file example_env Faults.none example_archive example_restore
        (push_wal_file example_env Faults.none (fun _ => none) example_source
          example_archive true false 1 stale_plain_world).1).1.db example_restore =
        some ⟨[9], 0o640⟩ ∧
      collision_gz_world.db example_source = some ⟨[0, 0, 0, 0, 0], 0o600⟩ ∧
      (push_wal_file example_env Faults.none (fun _ => none) example_source example_archive
        true false 1 collision_gz_world).2 = .ok () ∧
      (get_wal_file example_env Faults.none example_archive example_restore
        (push_wal_file example_env Faults.none (fun _ => none) example_source
          example_archive true false 1 collision_gz_world).1).1.db example_restore =
        some ⟨[1, 3, 131, 107, 242], 0o600⟩ := by
  decide

/-- C4, amended: round trip.  Let `push_wal_file` with compression on return normally
for a source with bytes `S`.  If a file that exists afterwards under the plain archive
path holds exactly `S` (`get_wal_file` probes the plain path first and copies that file
verbatim), if, when there is no such file, a `.gz` file that was already archived and
that the push accepts by checksum does decompress to `S` (no checksum collision), and
if no temporary file is in the way on the database host, then a following
`get_wal_file` without failing calls returns normally and the file it renames into
place holds exactly `S`, whichever variant it locates.  The codec is assumed to satisfy
`decompress (compress x) = x`. -/
theorem push_then_get_round_trip (E : Env)
    (hcodec : ∀ lvl x, E.decompress (E.compress lvl x) = some x)
    (io : Faults) (sizes : Nat → Option Nat) (from_path to_path restore_path : CString)
    (overwrite : Bool) (compress_level : Int) (w : World) (src : File)
    (hsrc : w.db from_path = some src)
    (hpush : (push_wal_file E io sizes from_path to_path true overwrite compress_level
      w).2 = .ok ())
    (hplain : ∀ f, (push_wal_file E io sizes from_path to_path true overwrite
      compress_level w).1.backup to_path = some f → f.content = src.content)
    (hcoll : (push_wal_file E io sizes from_path to_path true overwrite compress_level
        w).1.backup to_path = none →
      ∀ f d, w.backup (push_dest E to_path true) = some f →
        E.decompress f.content = some d →
        pg_crc32 (E.crc32 d) = pg_crc32 (E.crc32 src.content) → d = src.content)
    (htemp : (push_wal_file E io sizes from_path to_path true overwrite compress_level
      w).1.db (get_temp E restore_path) = none) :
    (get_wal_file E Faults.none to_path restore_path
        (push_wal_file E io sizes from_path to_path true overwrite compress_level
          w).1).2 = .ok () ∧
      ((get_wal_file E Faults.none to_path restore_path
        (push_wal_file E io sizes from_path to_path true overwrite compress_level
          w).1).1.db restore_path).map File.content = some src.content := by
  obtain ⟨src', hsrc', _, hcases⟩ :=
    push_wal_file_ok E io sizes from_path to_path true overwrite compress_level w hpush
  rw [hsrc] at hsrc'
  cases hsrc'
  generalize (push_wal_file E io sizes from_path to_path true overwrite compress_level
    w).1 = w1 at hplain hcoll htemp hcases ⊢
  cases hp : w1.backup to_path with
  | some fp =>
      -- the plain variant is located and copied verbatim
      obtain ⟨h1, h2, _, _⟩ := get_wal_file_plain E to_path restore_path w1 fp hp htemp
      exact ⟨h1, by rw [h2]; exact congrArg some (hplain fp hp)⟩
  | none =>
      -- the `.gz` variant is located and decompressed
      have hgz : ∃ f, w1.backup (get_gz_source E to_path) = some f ∧
          E.decompress f.content = some src.content := by
        rcases hcases with ⟨hw, f2, hf2, hcrc⟩ | ⟨hdest, _, _⟩
        · subst hw
          refine ⟨f2, hf2, ?_⟩
          simp only [archived_crc, if_true] at hcrc
          cases hd : E.decompress f2.content with
          | none => simp [hd] at hcrc
          | some d =>
              simp only [hd, Option.map_some', Option.some.injEq] at hcrc
              rw [hcoll hp f2 d hf2 hd hcrc]
        · exact ⟨_, hdest, by simp [hcodec]⟩
      obtain ⟨f, hf, hd⟩ := hgz
      obtain ⟨h1, h2, _, _⟩ :=
        get_wal_file_gz E to_path restore_path w1 f src.content hp hf hd htemp
      exact ⟨h1, by rw [h2]; rfl⟩

/-- Witness of C4, amended: the archive already holds the five bytes of the segment
under the plain archive path; the segment is pushed, compressed, and comes back from
`get_wal_file` byte for byte. -/
theorem push_then_get_round_trip_witness :
    same_plain_world.backup example_archive = some ⟨[1, 2, 3, 4, 5], 0o640⟩ ∧
      (push_wal_file small_block_env Faults.none (fun _ => none) example_source
        example_archive true false 1 same_plain_world).2 = .ok () ∧
      (get_wal_file small_block_env Faults.none example_archive example_restore
        (push_wal_file small_block_env Faults.none (fun _ => none) example_source
          example_archive true false 1 same_plain_world).1).2 = .ok () ∧
      ((get_wal_file small_block_env Faults.none example_archive example_restore
        (push_wal_file small_block_env Faults.none (fun _ => none) example_source
          example_archive true false 1 same_plain_world).1).1.db example_restore).map
            File.content = some [1, 2, 3, 4, 5] :=
  ⟨by decide, by decide,
    push_then_get_round_trip small_block_env example_codec_roundtrip Faults.none
      (fun _ => none) example_source example_archive example_restore false 1
      same_plain_world ⟨[1, 2, 3, 4, 5], 0o600⟩ (by decide) (by decide)
      (fun f hf => by
        have hsome : (push_wal_file small_block_env Faults.none (fun _ => none)
            example_source example_archive true false 1 same_plain_world).1.backup
              example_archive = some ⟨[1, 2, 3, 4, 5], 0o640⟩ := by decide
        rw [hsome] at hf
        cases hf
        rfl)
      (fun hnone => by
        have hsome : (push_wal_file small_block_env Faults.none (fun _ => none)
            example_source example_archive true false 1 same_plain_world).1.backup
              example_archive = some ⟨[1, 2, 3, 4, 5], 0o640⟩ := by decide
        rw [hsome] at hnone
        cases hnone)
      (by decide)⟩

/-- The round trip of C4 when nothing is archived yet: the five-byte segment is pushed,
compressed, into the empty archive and comes back from the `.gz` file byte for byte. -/
theorem push_then_get_round_trip_empty_archive :
    ((get_wal_file small_block_env Faults.none example_archive example_restore
        (push_wal_file small_block_env Faults.none (fun _ => none) example_source
          example_archive true false 1 example_world).1).1.db example_restore).map
            File.content = some [1, 2, 3, 4, 5] := by
  decide

/-! ## Theorems: the stale-partial detector -/

theorem off_t_to_int_le (n : Nat) : off_t_to_int (n : Int) ≤ (n : Int) := by
  unfold off_t_to_int
  omega

/-- After the first round the polling loop raises "is not stale" as soon as a sample
exceeds the recorded size. -/
theorem stale_poll_growth (st : Nat → Option Nat) :
    ∀ (rounds count : Nat) (size : Int), 0 < count →
      (∀ j, count ≤ j → j < count + rounds → st j ≠ none) →
      (∃ k sk, count ≤ k ∧ k < count + rounds ∧ st k = some sk ∧ size < (sk : Int)) →
      stale_poll st rounds count size = .error .notStale := by
  intro rounds
  induction rounds with
  | zero =>
      intro count size _ _ hk
      obtain ⟨k, sk, h1, h2, _, _⟩ := hk
      omega
  | succ rounds ih =>
      intro count size hc hst hk
      rw [stale_poll_succ]
      cases hs : st count with
      | none => exact absurd hs (hst count (Nat.le_refl _) (by omega))
      | some s =>
          have hc0 : ¬ count = 0 := by omega
          simp only [hc0, if_false]
          by_cases hgt : (s : Int) > size
          · simp [hgt]
          · simp only [hgt, if_false]
            apply ih (count + 1) size (by omega)
            · intro j hj1 hj2
              exact hst j (by omega) (by omega)
            · obtain ⟨k, sk, h1, h2, h3, h4⟩ := hk
              refine ⟨k, sk, ?_, by omega, h3, h4⟩
              by_contra hlt
              have hkc : k = count := by omega
              subst hkc
              rw [hs] at h3
              cases h3
              exact hgt h4

/-- The polling loop raises "is not stale" when some sample of the window exceeds the
first one. -/
theorem stale_poll_growth_from_first (st : Nat → Option Nat) (rounds : Nat)
    (hst : ∀ j, j < rounds → st j ≠ none)
    (hk : ∃ k s0 sk, k < rounds ∧ st 0 = some s0 ∧ st k = some sk ∧ s0 < sk) :
    stale_poll st rounds 0 0 = .error .notStale := by
  obtain ⟨k, s0, sk, hkr, h0, hsk, hlt⟩ := hk
  cases rounds with
  | zero => omega
  | succ rounds =>
      rw [stale_poll_succ, h0]
      simp only [if_true]
      by_cases hgt : (s0 : Int) > off_t_to_int (s0 : Int)
      · simp [hgt]
      · simp only [hgt, if_false]
        have heq : off_t_to_int (s0 : Int) = (s0 : Int) :=
          Int.le_antisymm (off_t_to_int_le s0) (by omega)
        apply stale_poll_growth st rounds 1 _ (by omega)
        · intro j _ hj2
          exact hst j (by omega)
        · have hk0 : k ≠ 0 := by
            intro hk0
            subst hk0
            rw [h0] at hsk
            cases hsk
            omega
          refine ⟨k, sk, by omega, by omega, hsk, ?_⟩
          rw [heq]
          exact_mod_cast hlt

/-- C5, evaluated on the code: a temporary file is left in the archive and each of the
60 samples reports the same size 2147483648 (2 ^ 31).  `partial_file_size` is an `int`,
so the first round stores -2147483648 and finds the size larger: the call fails with
"is not stale" and leaves the temporary file, instead of reclaiming it.  With the size
2147483647 at every sample the same call reclaims the file and completes. -/
theorem push_wal_file_large_stale_not_reclaimed :
    off_t_to_int 2147483648 = -2147483648 ∧
      (push_wal_file example_env Faults.none (fun _ => some 2147483648) example_source
        example_archive false false 0 stale_part_world).2 = .error .notStale ∧
      (push_wal_file example_env Faults.none (fun _ => some 2147483648) example_source
        example_archive false false 0 stale_part_world).1.backup
          (push_temp example_env example_archive false) = some ⟨[7, 7, 7], 0o600⟩ ∧
      (push_wal_file example_env Faults.none (fun _ => some 2147483647) example_source
        example_archive false false 0 stale_part_world).2 = .ok () ∧
      (push_wal_file example_env Faults.none (fun _ => some 2147483647) example_source
        example_archive false false 0 stale_part_world).1.backup example_archive =
          some ⟨[1, 2, 3, 4, 5], 0o600⟩ := by
  decide

/-- C6 as stated fails: the samples are 10, 5, 8, 8, ...; the size of the third round is
larger than the size of the second round, but not larger than the first one, which is
the only one the loop compares with.  The call does not raise "is not stale": it
unlinks the temporary file, creates it again and completes the push. -/
theorem push_wal_file_growth_after_shrink_reclaimed :
    shrink_then_grow 1 = some 5 ∧ shrink_then_grow 2 = some 8 ∧
      stale_part_world.backup (push_temp example_env example_archive false) =
        some ⟨[7, 7, 7], 0o600⟩ ∧
      (push_wal_file example_env Faults.none shrink_then_grow example_source
        example_archive false false 0 stale_part_world).2 = .ok () ∧
      (push_wal_file example_env Faults.none shrink_then_grow example_source
        example_archive false false 0 stale_part_world).1.backup
          (push_temp example_env example_archive false) = none ∧
      (push_wal_file example_env Faults.none shrink_then_grow example_source
        example_archive false false 0 stale_part_world).1.backup example_archive =
          some ⟨[1, 2, 3, 4, 5], 0o600⟩ := by
  decide

/-- C6, amended: growth detection.  Let `push_wal_file` have opened its source and
passed the check of lines 170-178, let the temporary file exist and let every sample of
the polling window succeed.  If the size observed at some round is larger than the size
observed at the first round, the call fails with "is not stale" and leaves every file
as it was: the temporary file is not unlinked, truncated or created again and the
destination is not touched. -/
theorem push_wal_file_growth_detected (E : Env) (io : Faults) (sizes : Nat → Option Nat)
    (from_path to_path : CString) (is_compress overwrite : Bool) (compress_level : Int)
    (w : World) (inp : Bytes)
    (hopen : fio_fopen io.fopen w from_path .FIO_DB_HOST = some inp)
    (hgo : fileExists w (push_dest E to_path is_compress) .FIO_BACKUP_HOST = false ∨
      (fileEqualCRC E io w from_path (push_dest E to_path is_compress) is_compress =
        .ok false ∧ overwrite = true))
    (hpart : w.backup (push_temp E to_path is_compress) ≠ none)
    (hstat : ∀ j, j < E.PARTIAL_WAL_TIMER → sizes j ≠ none)
    (hgrow : ∃ k s0 sk, k < E.PARTIAL_WAL_TIMER ∧ sizes 0 = some s0 ∧ sizes k = some sk ∧
      s0 < sk) :
    push_wal_file E io sizes from_path to_path is_compress overwrite compress_level w =
      (w, .error .notStale) := by
  rw [push_wal_file_copy E io sizes from_path to_path is_compress overwrite compress_level
    w inp hopen hgo]
  have hex : fileExists w (push_temp E to_path is_compress) .FIO_BACKUP_HOST = true := by
    cases h : w.backup (push_temp E to_path is_compress) with
    | none => exact absurd h hpart
    | some f => simp [fileExists, h]
  have hcreate : fio_open_excl E io.create w (push_temp E to_path is_compress)
      .FIO_BACKUP_HOST = none := by
    have : (w.backup (push_temp E to_path is_compress)).isSome = true := by
      simpa [fileExists] using hex
    simp [fio_open_excl, this]
  have hpoll : stale_poll (fun k => if fileExists w (push_temp E to_path is_compress)
      .FIO_BACKUP_HOST = true then sizes k else none) E.PARTIAL_WAL_TIMER 0 0 =
      .error .notStale := by
    simp only [hex, if_true]
    exact stale_poll_growth_from_first sizes E.PARTIAL_WAL_TIMER hstat hgrow
  simp only [push_open_temp, hcreate, hpoll]

/-- Witness of C6, amended: the samples are 5, 5, 8, 8, ...; the third one is larger than
the first, the call fails with "is not stale" and every file stays as it was. -/
theorem push_wal_file_growth_detected_witness :
    grow_after_first 0 = some 5 ∧ grow_after_first 2 = some 8 ∧
      push_wal_file example_env Faults.none grow_after_first example_source example_archive
        false false 0 stale_part_world = (stale_part_world, .error .notStale) :=
  ⟨by decide, by decide,
    push_wal_file_growth_detected example_env Faults.none grow_after_first example_source
      example_archive false false 0 stale_part_world [1, 2, 3, 4, 5] (by decide)
      (Or.inl (by decide)) (by decide)
      (fun j _ => by unfold grow_after_first; split <;> simp)
      ⟨2, 5, 8, by decide, by decide, by decide, by decide⟩⟩

/-! ## Further facts -/

theorem snprintf_fits (size : Nat) (t : CString) (h : t.length < size) :
    snprintf size t = t := by
  unfold snprintf
  exact List.take_of_length_le (by omega)

/-- When the names fit their `MAXPGPATH` buffers, the paths of `push_wal_file` are the
archive path with the suffixes `.gz`, `.part` and `.gz.part`. -/
theorem push_paths_fit (E : Env) (to_path : CString) (h : to_path.length + 8 < E.MAXPGPATH) :
    push_dest E to_path false = to_path ∧
      push_dest E to_path true = to_path ++ ".gz".toList ∧
      push_temp E to_path false = to_path ++ ".part".toList ∧
      push_temp E to_path true = to_path ++ ".gz.part".toList := by
  have h1 : snprintf E.MAXPGPATH (to_path ++ ".gz".toList) = to_path ++ ".gz".toList :=
    snprintf_fits _ _ (by simp; omega)
  refine ⟨rfl, ?_, ?_, ?_⟩
  · simp only [push_dest, if_true, h1]
  · simp only [push_temp, Bool.false_eq_true, if_false]
    exact snprintf_fits _ _ (by simp; omega)
  · simp only [push_temp, if_true, h1]
    rw [snprintf_fits _ _ (by simp; omega)]
    simp

/-- When the names fit their `MAXPGPATH` buffers, the paths of `get_wal_file` are the
archive path with the suffix `.gz` and the target path with the suffix `.part`. -/
theorem get_paths_fit (E : Env) (from_path to_path : CString)
    (hf : from_path.length + 3 < E.MAXPGPATH) (ht : to_path.length + 5 < E.MAXPGPATH) :
    get_gz_source E from_path = from_path ++ ".gz".toList ∧
      get_temp E to_path = to_path ++ ".part".toList :=
  ⟨snprintf_fits _ _ (by simp; omega), snprintf_fits _ _ (by simp; omega)⟩

/-- A 32-bit checksum cannot tell all contents apart: whatever the checksum function,
two different byte sequences have the same `pg_crc32`. -/
theorem pg_crc32_collision (E : Env) :
    ∃ a b : Bytes, a ≠ b ∧ pg_crc32 (E.crc32 a) = pg_crc32 (E.crc32 b) := by
  have hlt : ∀ x : Bytes, pg_crc32 (E.crc32 x) < 2 ^ 32 := fun x =>
    Nat.mod_lt _ (by norm_num)
  obtain ⟨a, b, hne, heq⟩ := Finite.exists_ne_map_eq_of_infinite
    (fun x : Bytes => (⟨pg_crc32 (E.crc32 x), hlt x⟩ : Fin (2 ^ 32)))
  exact ⟨a, b, hne, by simpa using congrArg Fin.val heq⟩

theorem stale_poll_constant (st : Nat → Option Nat) (s : Nat) (size : Int)
    (hsize : (s : Int) ≤ size) :
    ∀ (rounds count : Nat), 0 < count →
      (∀ j, count ≤ j → j < count + rounds → st j = some s) →
      stale_poll st rounds count size = .ok () := by
  intro rounds
  induction rounds with
  | zero => intro count _ _; rfl
  | succ rounds ih =>
      intro count hc hst
      rw [stale_poll_succ, hst count (Nat.le_refl _) (by omega)]
      have hc0 : ¬ count = 0 := by omega
      have hgt : ¬ (s : Int) > size := by omega
      simp only [hc0, if_false, hgt]
      exact ih (count + 1) (by omega) (fun j h1 h2 => hst j (by omega) (by omega))

/-- The polling loop ends without error when every sample reports the same size below
2 ^ 31. -/
theorem stale_poll_constant_small (st : Nat → Option Nat) (s rounds : Nat)
    (hs : s < 2 ^ 31) (hst : ∀ j, j < rounds → st j = some s) :
    stale_poll st rounds 0 0 = .ok () := by
  cases rounds with
  | zero => rfl
  | succ rounds =>
      have hconv : off_t_to_int (s : Int) = (s : Int) := by
        unfold off_t_to_int
        omega
      rw [stale_poll_succ, hst 0 (by omega)]
      simp only [if_true, hconv, gt_iff_lt, lt_self_iff_false, if_false]
      exact stale_poll_constant st s _ (Int.le_refl _) rounds 1 (by omega)
        (fun j _ h2 => hst j (by omega))

/-- The polling loop raises "is not stale" at its first round when the first sample is
2 ^ 31 or more (and fits an `off_t`). -/
theorem stale_poll_first_large (st : Nat → Option Nat) (s rounds : Nat)
    (hs : 2 ^ 31 ≤ s) (hs' : s < 2 ^ 63) (h0 : st 0 = some s) :
    stale_poll st (rounds + 1) 0 0 = .error .notStale := by
  have hconv : off_t_to_int (s : Int) < (s : Int) := by
    unfold off_t_to_int
    omega
  rw [stale_poll_succ, h0]
  simp [hconv]

theorem push_copy_none_ok (E : Env) (c : Bool) (temp : CString) :
    ∀ (fuel i : Nat) (inp g : Bytes) (w : World), inp.length < fuel →
      ∃ g2, (push_copy E Faults.none c temp fuel i inp g w).2 = .ok g2 := by
  intro fuel
  induction fuel with
  | zero => intro i inp g w h; exact absurd h (Nat.not_lt_zero _)
  | succ fuel ih =>
      intro i inp g w hlen
      by_cases hnil : inp = []
      · subst hnil
        exact ⟨g, by simp [push_copy, Faults.none]⟩
      · have hpos : (List.take E.XLOG_BLCKSZ inp).length > 0 :=
          (take_length_pos E inp).mpr hnil
        have hdrop := drop_length_lt E inp hnil
        cases c with
        | true =>
            obtain ⟨g2, hg2⟩ := ih (i + 1) (List.drop E.XLOG_BLCKSZ inp)
              (g ++ List.take E.XLOG_BLCKSZ inp) w (by omega)
            refine ⟨g2, ?_⟩
            simp only [push_copy, Faults.none, Bool.false_eq_true, if_false, hpos, if_true]
            exact hg2
        | false =>
            obtain ⟨g2, hg2⟩ := ih (i + 1) (List.drop E.XLOG_BLCKSZ inp) g
              (fio_write w temp (List.take E.XLOG_BLCKSZ inp) .FIO_BACKUP_HOST) (by omega)
            refine ⟨g2, ?_⟩
            simp only [push_copy, Faults.none, Bool.false_eq_true, if_false, hpos, if_true]
            exact hg2

theorem push_finish_none_ok (E : Env) (from_path dest temp : CString) (c : Bool) (lvl : Int)
    (g : Bytes) (w : World) (src t : File) (hsrc : w.db from_path = some src)
    (ht : w.backup temp = some t) :
    (push_finish E Faults.none from_path dest temp c lvl g w).2 = .ok () := by
  cases c <;>
    simp [push_finish, Faults.none, copy_file_attributes, fio_stat, fio_chmod, fio_rename,
      fio_write, hsrc, ht]

/-- Stale reclaim for sizes an `int` can hold: if the source exists, the destination is
absent, a temporary file is in the way, every sample of the polling window reports the
same size below 2 ^ 31 and no call fails, then `push_wal_file` removes the temporary
file, creates it again and completes: the destination holds the source content
(compressed when asked) and, when the two names differ, no temporary file is left. -/
theorem push_wal_file_stale_reclaim (E : Env) (sizes : Nat → Option Nat)
    (from_path to_path : CString) (is_compress overwrite : Bool) (compress_level : Int)
    (w : World) (src : File) (s : Nat)
    (hsrc : w.db from_path = some src)
    (hdest : w.backup (push_dest E to_path is_compress) = none)
    (hpart : w.backup (push_temp E to_path is_compress) ≠ none)
    (hsame : ∀ j, j < E.PARTIAL_WAL_TIMER → sizes j = some s) (hs : s < 2 ^ 31) :
    (push_wal_file E Faults.none sizes from_path to_path is_compress overwrite
        compress_level w).2 = .ok () ∧
      (push_wal_file E Faults.none sizes from_path to_path is_compress overwrite
        compress_level w).1.backup (push_dest E to_path is_compress) =
          some ⟨if is_compress then E.compress compress_level src.content else src.content,
            src.mode⟩ ∧
      (push_temp E to_path is_compress ≠ push_dest E to_path is_compress →
        (push_wal_file E Faults.none sizes from_path to_path is_compress overwrite
          compress_level w).1.backup (push_temp E to_path is_compress) = none) := by
  have hopen : fio_fopen Faults.none.fopen w from_path .FIO_DB_HOST = some src.content := by
    simp [fio_fopen, Faults.none, hsrc]
  have hex : fileExists w (push_dest E to_path is_compress) .FIO_BACKUP_HOST = false := by
    simp [fileExists, hdest]
  have hok : (push_wal_file E Faults.none sizes from_path to_path is_compress overwrite
      compress_level w).2 = .ok () := by
    rw [push_wal_file_copy E Faults.none sizes from_path to_path is_compress overwrite
      compress_level w src.content hopen (Or.inl hex)]
    have hpex : fileExists w (push_temp E to_path is_compress) .FIO_BACKUP_HOST = true := by
      cases h : w.backup (push_temp E to_path is_compress) with
      | none => exact absurd h hpart
      | some f => simp [fileExists, h]
    have hsome : (w.backup (push_temp E to_path is_compress)).isSome = true := by
      simpa [fileExists] using hpex
    have hpoll : stale_poll (fun k => if fileExists w (push_temp E to_path is_compress)
        .FIO_BACKUP_HOST = true then sizes k else none) E.PARTIAL_WAL_TIMER 0 0 = .ok () := by
      simp only [hpex, if_true]
      exact stale_poll_constant_small sizes s E.PARTIAL_WAL_TIMER hs hsame
    have hot : push_open_temp E Faults.none sizes (push_temp E to_path is_compress) w =
        (w.put .FIO_BACKUP_HOST (w.backup.update (push_temp E to_path is_compress)
          (some ⟨[], E.FILE_PERMISSIONS⟩)), .ok ()) := by
      have hcreate : fio_open_excl E Faults.none.create w (push_temp E to_path is_compress)
          .FIO_BACKUP_HOST = none := by
        simp [fio_open_excl, hsome]
      simp only [push_open_temp, hcreate, hpoll]
      simp only [fio_open_excl, fio_unlink, Faults.none, World.fs_backup,
        World.put_backup_backup, FileSystem.update_same, Option.isSome_none,
        Bool.false_eq_true, or_self, if_false, World.put_put]
      congr 2
      funext q
      by_cases hq : q = push_temp E to_path is_compress <;> simp [FileSystem.update, hq]
    rw [hot]
    simp only
    obtain ⟨g2, hg2⟩ := push_copy_none_ok E is_compress (push_temp E to_path is_compress)
      (src.content.length + 1) 0 src.content []
      (w.put .FIO_BACKUP_HOST (w.backup.update (push_temp E to_path is_compress)
        (some ⟨[], E.FILE_PERMISSIONS⟩))) (by omega)
    obtain ⟨c1, _, _, _, c5⟩ := push_copy_spec E Faults.none is_compress
      (push_temp E to_path is_compress) (src.content.length + 1) 0 src.content []
      (w.put .FIO_BACKUP_HOST (w.backup.update (push_temp E to_path is_compress)
        (some ⟨[], E.FILE_PERMISSIONS⟩)))
    revert hg2 c1 c5
    cases push_copy E Faults.none is_compress (push_temp E to_path is_compress)
        (src.content.length + 1) 0 src.content []
        (w.put .FIO_BACKUP_HOST (w.backup.update (push_temp E to_path is_compress)
          (some ⟨[], E.FILE_PERMISSIONS⟩))) with
    | mk w2 r2 =>
        intro hg2 c1 c5
        simp only at hg2 c1 c5
        subst hg2
        simp only
        obtain ⟨_, ht⟩ := c5 g2 rfl
        simp only [World.put_backup_backup, FileSystem.update_same, Option.map_some'] at ht
        exact push_finish_none_ok E from_path _ _ is_compress compress_level g2 w2 src _
          (by rw [c1]; exact hsrc) ht
  refine ⟨hok, ?_⟩
  obtain ⟨src', hsrc', _, hcases⟩ := push_wal_file_ok E Faults.none sizes from_path to_path
    is_compress overwrite compress_level w hok
  rw [hsrc] at hsrc'
  cases hsrc'
  rcases hcases with ⟨_, f2, hf2, _⟩ | ⟨h1, _, h3⟩
  · rw [hdest] at hf2
    cases hf2
  · exact ⟨h1, h3⟩

/-! ## The iteration budgets suffice -/

theorem fileEqualCRC_error (E : Env) (io : Faults) (w : World) (path1 path2 : CString)
    (c : Bool) (e : ArchiveError) (h : fileEqualCRC E io w path1 path2 c = .error e) :
    e = .cannotCompare ∨ e = .cannotCloseCompressed ∨ e = .cannotOpenFile := by
  cases c with
  | false =>
      cases h2 : w.backup path2 with
      | none =>
          simp [fileEqualCRC, pgFileGetCRC, h2, Except.map] at h
          simp [← h]
      | some f2 =>
          cases h1 : w.db path1 with
          | none =>
              simp [fileEqualCRC, pgFileGetCRC, h1, h2, Except.map] at h
              simp [← h]
          | some f1 => simp [fileEqualCRC, pgFileGetCRC, h1, h2, Except.map] at h
  | true =>
      by_cases hgo : io.gzopen_r = true
      · simp [fileEqualCRC, fio_gzopen_r, hgo] at h
        simp [← h]
      · cases h2 : w.backup path2 with
        | none =>
            simp [fileEqualCRC, fio_gzopen_r, hgo, h2] at h
            simp [← h]
        | some f2 =>
            have hloop : ∃ r, fileEqualCRC_loop io (gz_fuel ⟨E.decompress f2.content, false⟩) 0
                ⟨E.decompress f2.content, false⟩ [] = .ok r := by
              cases hd : E.decompress f2.content with
              | none =>
                  exact ⟨none, (fileEqualCRC_loop_spec io (gz_fuel ⟨none, false⟩) 0
                    ⟨none, false⟩ [] rfl).1 rfl (gz_fuel_pos _)⟩
              | some d =>
                  rcases ((fileEqualCRC_loop_spec io (gz_fuel ⟨some d, false⟩) 0
                    ⟨some d, false⟩ [] rfl).2 d rfl (by simp [gz_fuel])).1 with hl | hl
                  · exact ⟨_, hl⟩
                  · exact ⟨_, hl⟩
            obtain ⟨r, hr⟩ := hloop
            cases r with
            | none => simp [fileEqualCRC, fio_gzopen_r, hgo, h2, hr] at h
            | some stream =>
                by_cases hgc : io.gzclose_r = true
                · simp [fileEqualCRC, fio_gzopen_r, hgo, h2, hr, hgc] at h
                  simp [← h]
                · cases h1 : w.db path1 with
                  | none =>
                      simp [fileEqualCRC, fio_gzopen_r, hgo, h2, hr, hgc, pgFileGetCRC, h1] at h
                      simp [← h]
                  | some f1 =>
                      simp [fileEqualCRC, fio_gzopen_r, hgo, h2, hr, hgc, pgFileGetCRC, h1] at h

/-- No run of `push_wal_file` uses up the iteration budget of its loops. -/
theorem push_wal_file_fuel (E : Env) (io : Faults) (sizes : Nat → Option Nat)
    (from_path to_path : CString) (c ow : Bool) (lvl : Int) (w : World) :
    (push_wal_file E io sizes from_path to_path c ow lvl w).2 ≠ .error .outOfFuel := by
  intro h
  cases hopen : fio_fopen io.fopen w from_path .FIO_DB_HOST with
  | none =>
      rw [push_wal_file_no_source E io sizes _ _ _ _ _ w hopen] at h
      cases h
  | some inp =>
      have hcopy : (fileExists w (push_dest E to_path c) .FIO_BACKUP_HOST = false ∨
          (fileEqualCRC E io w from_path (push_dest E to_path c) c = .ok false ∧ ow = true)) →
          False := by
        intro hgo
        rw [push_wal_file_copy E io sizes from_path to_path c ow lvl w inp hopen hgo] at h
        obtain ⟨_, _, _, o4, _⟩ := push_open_temp_spec E io sizes (push_temp E to_path c) w
        revert h o4
        cases push_open_temp E io sizes (push_temp E to_path c) w with
        | mk w1 r1 =>
            cases r1 with
            | error e1 =>
                intro h o4
                cases h
                have := o4 _ rfl
                simp at this
            | ok u =>
                cases u
                intro h _
                simp only at h
                obtain ⟨_, _, _, c4, _⟩ :=
                  push_copy_spec E io c (push_temp E to_path c) (inp.length + 1) 0 inp [] w1
                revert h c4
                cases push_copy E io c (push_temp E to_path c) (inp.length + 1) 0 inp [] w1 with
                | mk w2 r2 =>
                    cases r2 with
                    | error e2 =>
                        intro h c4
                        cases h
                        exact c4 (Nat.lt_succ_self _) rfl
                    | ok g =>
                        intro h _
                        simp only at h
                        obtain ⟨_, f2, _⟩ := push_finish_spec E io from_path
                          (push_dest E to_path c) (push_temp E to_path c) c lvl g w2
                        have := (f2 _ h).2.2
                        simp at this
      by_cases hex : fileExists w (push_dest E to_path c) .FIO_BACKUP_HOST = true
      · cases heq : fileEqualCRC E io w from_path (push_dest E to_path c) c with
        | error e =>
            simp [push_wal_file, hopen, hex, heq] at h
            subst h
            have := fileEqualCRC_error E io w _ _ c _ heq
            simp at this
        | ok b =>
            cases b with
            | true => simp [push_wal_file, hopen, hex, heq] at h
            | false =>
                cases ow with
                | false => simp [push_wal_file, hopen, hex, heq] at h
                | true => exact hcopy (Or.inr ⟨heq, rfl⟩)
      · exact hcopy (Or.inl (by simpa using hex))

theorem get_copy_fuel (E : Env) (io : Faults) (c : Bool) (temp : CString) :
    ∀ (fuel i : Nat) (inp : Bytes) (gz : gzFile) (w : World), gz.eof = false →
      (c = false → inp.length < fuel) → (c = true → gz_fuel gz ≤ fuel) →
      (get_copy E io c temp fuel i inp gz w).2 ≠ .error .outOfFuel := by
  intro fuel
  induction fuel with
  | zero =>
      intro i inp gz w _ h1 h2
      cases c with
      | false => exact absurd (h1 rfl) (Nat.not_lt_zero _)
      | true =>
          have := gz_fuel_pos gz
          have := h2 rfl
          omega
  | succ fuel ih =>
      intro i inp gz w heof h1 h2 h
      have hB := E.XLOG_BLCKSZ_pos
      cases c with
      | true =>
          obtain ⟨stream, eof⟩ := gz
          simp only at heof
          subst heof
          cases stream with
          | none => simp [get_copy, fio_gzread] at h
          | some rest =>
              by_cases hf : io.gzread i = true
              · simp [get_copy, fio_gzread, hf] at h
              · have hf' : io.gzread i = false := by simpa using hf
                by_cases hshort : rest.length < E.XLOG_BLCKSZ
                · simp only [get_copy, fio_gzread, hf', if_true, Bool.false_eq_true, if_false,
                    hshort, decide_True, and_false, true_or] at h
                  split at h
                  · cases h
                  · split at h <;> cases h
                · have hge : E.XLOG_BLCKSZ ≤ rest.length := Nat.not_lt.mp hshort
                  have hne : rest ≠ [] := by
                    intro hn
                    subst hn
                    simp at hge
                    omega
                  have hpos : (List.take E.XLOG_BLCKSZ rest).length > 0 :=
                    (take_length_pos E rest).mpr hne
                  have hne0 : ¬ (List.take E.XLOG_BLCKSZ rest).length = 0 := by omega
                  have hdrop := drop_length_lt E rest hne
                  have hfu := h2 rfl
                  simp only [gz_fuel] at hfu
                  simp only [get_copy, fio_gzread, hf', if_true, Bool.false_eq_true, if_false,
                    hshort, decide_False, hne0, or_false, false_and, not_false_eq_true,
                    true_and, hpos, and_false, false_or] at h
                  split at h
                  · cases h
                  · exact ih (i + 1) inp ⟨some (List.drop E.XLOG_BLCKSZ rest), false⟩ _ rfl
                      (fun hc => by cases hc) (fun _ => by simp only [gz_fuel]; omega) h
      | false =>
          have hlen := h1 rfl
          simp only [get_copy, Bool.false_eq_true, if_false] at h
          split at h
          · cases h
          · split at h
            · split at h
              · cases h
              · rename_i hpos _
                have hne : inp ≠ [] := (take_length_pos E inp).mp hpos
                have hdrop := drop_length_lt E inp hne
                exact ih (i + 1) (List.drop E.XLOG_BLCKSZ inp) gz _ heof
                  (fun _ => by omega) (fun hc => by cases hc) h
            · cases h

/-- No run of `get_wal_file` uses up the iteration budget of its copy loop. -/
theorem get_wal_file_fuel (E : Env) (io : Faults) (from_path to_path : CString) (w : World) :
    (get_wal_file E io from_path to_path w).2 ≠ .error .outOfFuel := by
  intro h
  cases hp : get_probe E w from_path with
  | none => simp [get_wal_file, hp] at h
  | some c =>
      simp only [get_wal_file, hp] at h
      cases ho : get_open E io from_path to_path c w with
      | error e =>
          simp only [ho] at h
          cases h
          have := get_open_error E io from_path to_path c w _ ho
          simp at this
      | ok r =>
          obtain ⟨inp, gz_in, w1⟩ := r
          simp only [ho] at h
          have hgz : gz_in.eof = false := by
            unfold get_open at ho
            cases c with
            | false =>
                simp only [Bool.not_false, if_true] at ho
                cases hfo : fio_fopen io.fopen w from_path .FIO_BACKUP_HOST with
                | none => simp [hfo] at ho
                | some x =>
                    simp only [hfo] at ho
                    split at ho
                    · cases ho
                    · cases ho; rfl
            | true =>
                simp only [Bool.not_true, Bool.false_eq_true, if_false] at ho
                cases hgo : fio_gzopen_r E io.gzopen_r w (get_gz_source E from_path)
                    .FIO_BACKUP_HOST with
                | none => simp [hgo] at ho
                | some g =>
                    simp only [hgo] at ho
                    split at ho
                    · cases ho
                    · cases ho
                      unfold fio_gzopen_r at hgo
                      split at hgo
                      · cases hgo
                      · cases hb : w.fs .FIO_BACKUP_HOST (get_gz_source E from_path) with
                        | none => simp [hb] at hgo
                        | some f =>
                            simp only [hb, Option.map_some', Option.some.injEq] at hgo
                            rw [← hgo]
          have hfuel := get_copy_fuel E io c (get_temp E to_path)
            (inp.length + gz_fuel gz_in) 0 inp gz_in w1 hgz
            (fun _ => by have := gz_fuel_pos gz_in; omega) (fun _ => by omega)
          revert h hfuel
          cases get_copy E io c (get_temp E to_path) (inp.length + gz_fuel gz_in) 0 inp
              gz_in w1 with
          | mk w2 r2 =>
              cases r2 with
              | error e =>
                  intro h hfuel
                  cases h
                  exact hfuel rfl
              | ok u =>
                  intro h _
                  simp only at h
                  have := get_finish_error io _ to_path (get_temp E to_path) c w2 _ h
                  simp at this

/-! ## Theorems: the argument vector of `launch_agent` -/

theorem launch_agent_head_length (cfg : RemoteConfig) :
    1 ≤ (launch_agent_head cfg).length ∧ (launch_agent_head cfg).length ≤ 5 := by
  unfold launch_agent_head
  cases cfg.port <;> cases cfg.ssh_config <;> simp

theorem launch_agent_tail_length (cfg : RemoteConfig) (cmd : CString) :
    6 ≤ (launch_agent_tail cfg cmd).length ∧ (launch_agent_tail cfg cmd).length ≤ 8 := by
  unfold launch_agent_tail
  split <;> simp

/-- The argument vector of `launch_agent` in closed form: the entries of lines 70-79,
the option string cut at its spaces, the entries of lines 83-96; "Too much options" is
raised exactly when the first two parts together reach `MAX_CMDLINE_OPTIONS` entries
(and the option string holds a token). -/
theorem launch_agent_argv_eq (cfg : RemoteConfig) (cmd : CString) :
    launch_agent_argv cfg cmd =
      match cfg.ssh_options with
      | none => .ok (launch_agent_head cfg ++ launch_agent_tail cfg cmd)
      | some o =>
          if space_pieces [] o = [] ∨
              (launch_agent_head cfg).length + (space_pieces [] o).length <
                MAX_CMDLINE_OPTIONS then
            .ok (launch_agent_head cfg ++ space_pieces [] o ++ launch_agent_tail cfg cmd)
          else .error .tooMuchOptions := by
  unfold launch_agent_argv
  cases cfg.ssh_options with
  | none => rfl
  | some o =>
      simp only [split_options_eq]
      by_cases hc : space_pieces [] o = [] ∨
          (launch_agent_head cfg).length + (space_pieces [] o).length < MAX_CMDLINE_OPTIONS
      · simp only [if_pos hc]
      · simp only [if_neg hc]

/-- What bounds the argument vector of `launch_agent`: when `split_options` raises no
error, at most `MAX_CMDLINE_OPTIONS - 1` entries are in use after it (or the at most
five entries before it, when the option string holds no token), and up to eight more
are stored after it without a check.  So every index written, the one of the
terminating `NULL` included, is at most `MAX_CMDLINE_OPTIONS + 7`. -/
theorem launch_agent_argv_length_le (cfg : RemoteConfig) (cmd : CString)
    (v : List CString) (h : launch_agent_argv cfg cmd = .ok v) :
    v.length ≤ MAX_CMDLINE_OPTIONS + 7 ∧
      ∀ i ∈ ssh_argv_written v, i ≤ MAX_CMDLINE_OPTIONS + 7 := by
  have hh := launch_agent_head_length cfg
  have ht := launch_agent_tail_length cfg cmd
  have hlen : v.length ≤ MAX_CMDLINE_OPTIONS + 7 := by
    rw [launch_agent_argv_eq] at h
    simp only [MAX_CMDLINE_OPTIONS] at h ⊢
    cases ho : cfg.ssh_options with
    | none =>
        simp only [ho, Except.ok.injEq] at h
        rw [← h, List.length_append]
        omega
    | some o =>
        simp only [ho] at h
        split at h
        · rename_i hc
          simp only [Except.ok.injEq] at h
          rw [← h, List.length_append, List.length_append]
          rcases hc with hc | hc
          · rw [hc, List.length_nil]
            omega
          · omega
        · cases h
  refine ⟨hlen, ?_⟩
  intro i hi
  simp only [ssh_argv_written, List.mem_range] at hi
  omega

/-- Without an option string every index `launch_agent` writes into `ssh_argv` is
smaller than `MAX_CMDLINE_OPTIONS`. -/
theorem launch_agent_argv_no_options (cfg : RemoteConfig) (cmd : CString)
    (ho : cfg.ssh_options = none) :
    ∃ v, launch_agent_argv cfg cmd = .ok v ∧
      ∀ i ∈ ssh_argv_written v, i < MAX_CMDLINE_OPTIONS := by
  have hh := launch_agent_head_length cfg
  have ht := launch_agent_tail_length cfg cmd
  refine ⟨launch_agent_head cfg ++ launch_agent_tail cfg cmd, ?_, ?_⟩
  · rw [launch_agent_argv_eq, ho]
  · intro i hi
    simp only [ssh_argv_written, List.mem_range, List.length_append] at hi
    simp only [MAX_CMDLINE_OPTIONS]
    omega

set_option maxRecDepth 1000000 in
/-- C11, evaluated on the code: with no port, no config file, one thread and an option
string of 254 one-letter options, `split_options` raises no error (it leaves `ssh_argc`
at 255, below `max_options`), and `launch_agent` goes on to store six more entries and
the terminating `NULL` without a check: it writes the indices 0 to 261 of `ssh_argv`,
which has `MAX_CMDLINE_OPTIONS` = 256 entries.  With 249 options the `NULL` alone lands
on index 256. -/
theorem launch_agent_argv_overflow :
    (launch_agent_argv long_options_config
        (launch_agent_cmd long_options_config.path "pg_probackup".toList
          "2.1.3".toList)).map ssh_argv_written = .ok (List.range 262) ∧
      (launch_agent_argv threshold_options_config
        (launch_agent_cmd threshold_options_config.path "pg_probackup".toList
          "2.1.3".toList)).map ssh_argv_written = .ok (List.range 257) ∧
      ¬ (∀ i ∈ List.range 262, i < MAX_CMDLINE_OPTIONS) ∧
      ¬ (∀ i ∈ List.range 257, i < MAX_CMDLINE_OPTIONS) := by
  decide

end PgProbackup
